import Mathlib

/-
Shallow embedding of the explicit-free-list allocator of this repository
(the variant with boundary tags, a doubly linked LIFO free list, first-fit
placement with splitting, and immediate coalescing).

Modelling notes.
* size_t arithmetic is modulo WSIZE = 2^64 (64-bit target); the modulus is
  written explicitly at the additions that can overflow.
* The heap is the physical sequence of blocks from mm_heap_first to
  mm_heap_last; block base addresses are derived from the 8-byte padding
  that mm_init reserves (the first block starts at address 8) plus the
  sizes of the preceding blocks.  A block is represented by its header
  word.  The footer that set_header maintains always duplicates the header
  size (set_header is the only writer of both words), so the boundary-tag
  read that mm_free performs at address block-8 resolves to the physical
  predecessor; the model therefore keeps only the header word per block
  and mm_free takes the physical predecessor directly.
* The intrusive doubly linked free list is modelled as the list of node
  addresses from head; add_block is insertion at the head and remove_block
  removes the (unique, under well-formedness) node with the given address.
* The region provider (memlib's mem_sbrk, an external collaborator) is a
  grow-only region with a capacity: mem_sbrk(k) succeeds and returns the
  old break iff the region stays within the capacity, otherwise it reports
  exhaustion.
* Undefined behaviour (memcpy/memset through the null pointer, recovering
  a block from a pointer that is not a block payload) is modelled by
  Option: none means the call does not return normally.
-/

namespace MM

/-- Modulus of size_t arithmetic on the 64-bit target. -/
def WSIZE : Nat := 2 ^ 64

/-- The required alignment of heap payloads: 2 * sizeof(size_t). -/
def ALIGNMENT : Nat := 16

/-- sizeof(block_t): the one-word header (the payload member has size zero). -/
def HDR : Nat := 8

/-- sizeof(footer_t): the one-word footer. -/
def FTR : Nat := 8

/-- A heap block, represented by its header word (size with the allocated
flag in the low bit).  See the modelling notes for the footer. -/
structure Blk where
  header : Nat
deriving DecidableEq, Repr

/-- get_size: header with the low bit cleared.  Block sizes are multiples of
ALIGNMENT, so clearing the low bit is subtracting header mod 2. -/
def get_size (b : Blk) : Nat := b.header - b.header % 2

/-- is_allocated: the low bit of the header. -/
def is_allocated (b : Blk) : Bool := b.header % 2 == 1

/-- The header word set_header stores: size | is_allocated.  For the even
sizes the allocator uses, the bitwise or is addition of the flag bit. -/
def mkHeader (size : Nat) (a : Bool) : Blk :=
  ⟨size + (if a then 1 else 0)⟩

/-- round_up of the source: (size + (n - 1)) / n * n in size_t arithmetic. -/
def round_up (size n : Nat) : Nat := (size + (n - 1)) % WSIZE / n * n

/-- The rounded block size mm_malloc computes for a request of n bytes:
round_up(sizeof(block_t) + n + sizeof(footer_t), ALIGNMENT). -/
def mallocNeed (n : Nat) : Nat := round_up ((HDR + n + FTR) % WSIZE) ALIGNMENT

/-- The allocator state: the physical blocks (mm_heap_first .. mm_heap_last
in order), the free-list node addresses (head first), and the capacity of
the underlying region. -/
structure AllocState where
  heap : List Blk
  freeList : List Nat
  cap : Nat
deriving DecidableEq, Repr

/-- The base address of the first block: mm_init reserves
ALIGNMENT - sizeof(block_t) = 8 bytes of padding. -/
def heapBase : Nat := 8

/-- The total number of bytes occupied by a list of blocks. -/
def sizeSum (h : List Blk) : Nat := (h.map get_size).sum

/-- The current break of the region: padding plus all block bytes. -/
def brkOf (st : AllocState) : Nat := heapBase + sizeSum st.heap

/-- The block whose base address is a, searching from base. -/
def blockAtFrom (base a : Nat) : List Blk → Option Blk
  | [] => none
  | b :: bs => if a = base then some b else blockAtFrom (base + get_size b) a bs

/-- The block whose base address is a. -/
def blockAt (h : List Blk) (a : Nat) : Option Blk := blockAtFrom heapBase a h

/-- The index of the block whose base address is a, searching from base. -/
def blockIdxFrom (base a : Nat) : List Blk → Option Nat
  | [] => none
  | b :: bs =>
    if a = base then some 0 else (blockIdxFrom (base + get_size b) a bs).map (· + 1)

/-- The index of the block whose base address is a. -/
def blockIdx (h : List Blk) (a : Nat) : Option Nat := blockIdxFrom heapBase a h

/-- The base address of the block at index i. -/
def addrAt (h : List Blk) (i : Nat) : Nat := heapBase + sizeSum (h.take i)

/-- get_size of the block at address a (0 when no block starts there). -/
def sizeAt (h : List Blk) (a : Nat) : Nat :=
  match blockAt h a with
  | some b => get_size b
  | none => 0

/-- Replace the block whose base address is a by the given blocks. -/
def replaceFrom (base a : Nat) (new : List Blk) : List Blk → List Blk
  | [] => []
  | b :: bs =>
    if a = base then new ++ bs else b :: replaceFrom (base + get_size b) a new bs

/-- Replace the block at address a in the heap by the given blocks. -/
def replaceBlk (h : List Blk) (a : Nat) (new : List Blk) : List Blk :=
  replaceFrom heapBase a new h

/-- find_fit's walk of the free list: the first node whose block size is at
least the requested size. -/
def find_fit_go (h : List Blk) : List Nat → Nat → Option Nat
  | [], _ => none
  | a :: rest, need => if need ≤ sizeAt h a then some a else find_fit_go h rest need

/-- find_fit: first-fit search over the free list. -/
def find_fit (st : AllocState) (need : Nat) : Option Nat :=
  find_fit_go st.heap st.freeList need

/-- mm_malloc.  Rounds the request, searches the free list; on a hit it
unlinks the block (remove_block), splits when the block size strictly
exceeds sizeof(block_t) + need + sizeof(footer_t) (split_helper: low part
allocated of the rounded size, high part a new free block pushed at the
free-list head), otherwise allocates the whole block; on a miss it grows
the region by the rounded size.  Returns the payload address (base + HDR)
or none on region exhaustion. -/
def mm_malloc (n : Nat) (st : AllocState) : Option Nat × AllocState :=
  let need := mallocNeed n
  match find_fit st need with
  | some a =>
    let fl := st.freeList.erase a
    let s := sizeAt st.heap a
    if (HDR + need + FTR) % WSIZE < s then
      (some (a + HDR),
       { st with
           heap := replaceBlk st.heap a [mkHeader need true, mkHeader (s - need) false],
           freeList := (a + need) :: fl })
    else
      (some (a + HDR),
       { st with heap := replaceBlk st.heap a [mkHeader s true], freeList := fl })
  | none =>
    if brkOf st + need ≤ st.cap then
      (some (brkOf st + HDR), { st with heap := st.heap ++ [mkHeader need true] })
    else
      (none, st)

/-- Whether an optional neighbor exists and is free (the prev/next tests of
coalesce_helper). -/
def isFreeO : Option Blk → Bool
  | some b => !is_allocated b
  | none => false

/-- coalesce_helper, acting on the freed block's index i.  The physical
neighbors are index i-1 (none when the block is mm_heap_first) and index
i+1 (none when it is mm_heap_last); the four cases of the source merge the
spans, keep header and footer of the surviving block in agreement, and
unlink the absorbed nodes (remove_block) from the free list, which at this
point already contains the freed block at its head (add_block ran first).
mm_heap_last updates are implicit in the list representation. -/
def coalesce_helper (heap : List Blk) (fl : List Nat) (i : Nat) : List Blk × List Nat :=
  let a := addrAt heap i
  let s := get_size ((heap.get? i).getD ⟨0⟩)
  let prevO := if i = 0 then none else heap.get? (i - 1)
  let nextO := heap.get? (i + 1)
  let nextAddr := a + s
  if isFreeO prevO && isFreeO nextO then
    let sp := get_size (prevO.getD ⟨0⟩)
    let sn := get_size (nextO.getD ⟨0⟩)
    (heap.take (i - 1) ++ [mkHeader (sp + s + sn) false] ++ heap.drop (i + 2),
     (fl.erase nextAddr).erase a)
  else if isFreeO prevO then
    let sp := get_size (prevO.getD ⟨0⟩)
    (heap.take (i - 1) ++ [mkHeader (sp + s) false] ++ heap.drop (i + 1),
     fl.erase a)
  else if isFreeO nextO then
    let sn := get_size (nextO.getD ⟨0⟩)
    (heap.take i ++ [mkHeader (s + sn) false] ++ heap.drop (i + 2),
     fl.erase nextAddr)
  else
    (heap.take i ++ [mkHeader s false] ++ heap.drop (i + 1), fl)

/-- The minimum block size of the explicit-list layout: header, the two
free-list link words a free block stores in its payload, and the footer. -/
def MIN_BLOCK : Nat := HDR + 8 + 8 + FTR

/-- mm_free on a non-null payload pointer.  Recovers the block base
(p - offsetof(block_t, payload)), pushes it at the free-list head
(add_block), then coalesces with the physical neighbors.  none marks
executions whose effect the block-level state cannot express: freeing a
pointer that is not a block payload, and freeing a block smaller than
MIN_BLOCK.  On the second path the source returns normally but corrupts
the heap: add_block stores the node's prev and next words at bytes 8..24
of the block and set_header later writes the footer at size - 8, so for
the 16-byte blocks the unclamped mm_malloc(0) creates, the next word
lands on the physical successor's header (an address or 0, both even, so
the successor then reads as a free block) or past the region end when
the block is last, and the footer overlaps the link words; the coalesce
that follows merges with that phantom free successor or, when merging
into a free left neighbor, remove_block reads the just-written footer
bytes and the dead block's payload bytes as link pointers and writes
through them.  The resulting byte-level state no longer carries the
block partition this model tracks, so such calls are mapped to none
rather than to any block-level result. -/
def mm_free (p : Nat) (st : AllocState) : Option AllocState :=
  let a := p - HDR
  match blockIdx st.heap a with
  | none => none
  | some i =>
    if get_size ((st.heap.get? i).getD ⟨0⟩) < MIN_BLOCK then none
    else
      let r := coalesce_helper st.heap (a :: st.freeList) i
      some { st with heap := r.1, freeList := r.2 }

/-- mm_free including the null case: mm_free(NULL) does nothing. -/
def mm_free_p (p : Option Nat) (st : AllocState) : Option AllocState :=
  match p with
  | none => some st
  | some q => mm_free q st

/-- The byte count mm_realloc hands to memcpy: the old block's get_size,
capped by the requested size (lines computing new_size and choosing the
memcpy length). -/
def reallocCopyLen (oldSize n : Nat) : Nat := if n < oldSize then n else oldSize

/-- mm_realloc.  Faithful to the source order: mm_malloc runs first; then
the null-old-pointer test, then the zero-size test (which frees and
returns null), then the copy of reallocCopyLen bytes and mm_free of the
old block.  The third component of a normal result is the number of bytes
given to memcpy (byte contents are not modelled).  none models undefined
behaviour: memcpy through the null new pointer, or an invalid old
pointer reaching mm_free. -/
def mm_realloc (old_ptr : Option Nat) (n : Nat) (st : AllocState) :
    Option (Option Nat × AllocState × Nat) :=
  let r1 := mm_malloc n st
  match old_ptr with
  | none => some (r1.1, r1.2, 0)
  | some p =>
    if n = 0 then
      (mm_free p r1.2).map (fun st2 => (none, st2, 0))
    else
      let oldSize := sizeAt r1.2.heap (p - HDR)
      match r1.1 with
      | none => none
      | some np =>
        (mm_free p r1.2).map (fun st2 => (some np, st2, reallocCopyLen oldSize n))

/-- mm_calloc: total = nmemb * size in size_t arithmetic, mm_malloc, then
memset(block, 0, total) unconditionally.  none models the undefined
behaviour of memset through the null pointer when the allocation failed;
the zeroing itself only touches the fresh block's payload. -/
def mm_calloc (k s : Nat) (st : AllocState) : Option (Option Nat × AllocState) :=
  let total := k * s % WSIZE
  let r := mm_malloc total st
  match r.1 with
  | none => none
  | some p => some (some p, r.2)

/-- mm_init: reserves the ALIGNMENT - sizeof(block_t) padding bytes from
the region (failing if even that is refused) and resets head,
mm_heap_first and mm_heap_last. -/
def mm_init (cap : Nat) : Option AllocState :=
  if heapBase ≤ cap then some ⟨[], [], cap⟩ else none

/-- The blocks of a heap paired with their base addresses, from base. -/
def addrBlocksFrom (base : Nat) : List Blk → List (Nat × Blk)
  | [] => []
  | b :: bs => (base, b) :: addrBlocksFrom (base + get_size b) bs

/-- The blocks of the heap paired with their base addresses. -/
def addrBlocks (h : List Blk) : List (Nat × Blk) := addrBlocksFrom heapBase h

/-- Every block size is a nonzero multiple of ALIGNMENT and a valid size_t. -/
def sizesOkB (h : List Blk) : Bool :=
  h.all fun b =>
    (get_size b % ALIGNMENT == 0) && decide (ALIGNMENT ≤ get_size b) &&
      decide (get_size b < WSIZE)

/-- Every free-list node address is the base of a free heap block. -/
def freeOkB (st : AllocState) : Bool :=
  st.freeList.all fun a =>
    match blockAt st.heap a with
    | some b => !is_allocated b
    | none => false

/-- Every free heap block appears on the free list. -/
def freeCompleteB (st : AllocState) : Bool :=
  (addrBlocks st.heap).all fun ab => is_allocated ab.2 || st.freeList.contains ab.1

/-- The list has no duplicates. -/
def nodupB : List Nat → Bool
  | [] => true
  | a :: rest => !rest.contains a && nodupB rest

/-- Well-formed allocator state: sizes in range, the free list holding
exactly the free blocks, each at most once. -/
def WFb (st : AllocState) : Bool :=
  sizesOkB st.heap && freeOkB st && freeCompleteB st && nodupB st.freeList

/-- Every block has at least the minimum block size of the explicit-list
layout (header + two list pointers + footer = 32 bytes). -/
def minSizesB (h : List Blk) : Bool := h.all fun b => decide (32 ≤ get_size b)

/-- No two physically adjacent blocks are both free. -/
def noAdjFree : List Blk → Bool
  | b :: c :: rest => (is_allocated b || is_allocated c) && noAdjFree (c :: rest)
  | _ => true

/-- The list-order neighbors (predecessor, successor) of the first
occurrence of x, pr being the element before the current sublist. -/
def listNeighborsGo (pr x : Nat) : List Nat → Option Nat × Option Nat
  | [] => (none, none)
  | a :: rest => if a = x then (some pr, rest.head?) else listNeighborsGo a x rest

/-- The list-order neighbors of the first occurrence of x in the free
list; these are the nodes whose link words remove_block(x) rewrites. -/
def listNeighbors (x : Nat) : List Nat → Option Nat × Option Nat
  | [] => (none, none)
  | a :: rest => if a = x then (none, rest.head?) else listNeighborsGo a x rest

/-- The byte ranges (start, length) written by remove_block(x) when the
free list is fl: the predecessor's next word (offset HDR + 8 from its
base) and the successor's prev word (offset HDR from its base).  When x
is the head, only the module variable head changes, which is not a heap
byte. -/
def removeWrites (x : Nat) (fl : List Nat) : List (Nat × Nat) :=
  let nb := listNeighbors x fl
  (match nb.1 with | some q => [(q + 16, 8)] | none => []) ++
    (match nb.2 with | some q => [(q + 8, 8)] | none => [])

/-- The byte ranges written by add_block(a) when the free list is fl: the
new node's prev and next words, and the old head's prev word when the
list was nonempty. -/
def addWrites (a : Nat) (fl : List Nat) : List (Nat × Nat) :=
  (a + 8, 8) :: (a + 16, 8) ::
    (match fl with | [] => [] | old :: _ => [(old + 8, 8)])

/-- The byte ranges written by set_header(block at a, size): the header
word at a and the footer word at a + size - sizeof(footer_t). -/
def setHeaderWrites (a size : Nat) : List (Nat × Nat) := [(a, 8), (a + size - 8, 8)]

/-- The byte ranges written by coalesce_helper, following the write order
of the source in each of the four cases (fl1 is the free list after
add_block, so with the freed block's address at its head). -/
def coalesceWrites (heap : List Blk) (fl1 : List Nat) (i : Nat) : List (Nat × Nat) :=
  let a := addrAt heap i
  let s := get_size ((heap.get? i).getD ⟨0⟩)
  let prevO := if i = 0 then none else heap.get? (i - 1)
  let nextO := heap.get? (i + 1)
  let nextAddr := a + s
  if isFreeO prevO && isFreeO nextO then
    let ap := addrAt heap (i - 1)
    let sp := get_size (prevO.getD ⟨0⟩)
    let sn := get_size (nextO.getD ⟨0⟩)
    setHeaderWrites ap (sp + s + sn) ++ removeWrites nextAddr fl1 ++
      removeWrites a (fl1.erase nextAddr)
  else if isFreeO prevO then
    let ap := addrAt heap (i - 1)
    let sp := get_size (prevO.getD ⟨0⟩)
    setHeaderWrites ap (sp + s) ++ removeWrites a fl1
  else if isFreeO nextO then
    let sn := get_size (nextO.getD ⟨0⟩)
    setHeaderWrites a (s + sn) ++ removeWrites nextAddr fl1
  else
    setHeaderWrites a s

/-- All byte ranges written by mm_free(p): add_block first, then the
coalesce writes.  Empty on the paths mm_free maps to none (invalid
pointer, block below MIN_BLOCK), whose writes escape the tracked block
structure. -/
def freeWrites (p : Nat) (st : AllocState) : List (Nat × Nat) :=
  let a := p - HDR
  match blockIdx st.heap a with
  | none => []
  | some i =>
    if get_size ((st.heap.get? i).getD ⟨0⟩) < MIN_BLOCK then []
    else addWrites a st.freeList ++ coalesceWrites st.heap (a :: st.freeList) i

/-- C2: the claim says that when the underlying allocation fails,
resize(p, n) with p non-null and n > 0 returns null and leaves the old
block allocated and untouched.  On the code, mm_malloc runs first and the
failure is not checked before memcpy: with the region exhausted (one
allocated 48-byte block, capacity 56, so mem_sbrk refuses to grow),
mm_malloc(1) yields the null pointer and mm_realloc(payload 16, 1) passes
it straight to memcpy, which is undefined behaviour (modelled as none):
the call does not return null with the old block preserved. -/
theorem C2_realloc_failure_crash :
    (mm_malloc 1 ⟨[mkHeader 48 true], [], 56⟩).1 = none ∧
      mm_realloc (some 16) 1 ⟨[mkHeader 48 true], [], 56⟩ = none := by
  decide

/-- C4: the claim says resize copies min(old payload capacity, n) bytes,
capacity = old size - header - footer.  The code caps the copy by the old
block's total get_size instead: resizing the 48-byte block (capacity 32)
to n = 100 hands 48 bytes to memcpy, not min(32, 100) = 32, reading 16
bytes past the old payload's capacity. -/
theorem C4_realloc_copy_len :
    mm_realloc (some 16) 100 ⟨[mkHeader 48 true], [], 184⟩ =
        some (some 64,
          ⟨[mkHeader 48 false, mkHeader 128 true], [8], 184⟩,
          reallocCopyLen 48 100) ∧
      reallocCopyLen 48 100 = 48 ∧
      min (48 - (HDR + FTR)) 100 = 32 := by
  decide

/-- C5: the claim says the chosen block size is
round_up(header + n + footer, ALIGNMENT) clamped below to the minimum
block size 32, so allocate(0) yields a minimum-size block.  The code
performs no clamping: mm_malloc(0) computes a block size of 16 and, on a
fresh heap, creates a 16-byte allocated block, smaller than the 32-byte
minimum of the explicit-list layout. -/
theorem C5_alloc_zero_small_block :
    mallocNeed 0 = 16 ∧
      mm_malloc 0 ⟨[], [], 24⟩ = (some 16, ⟨[mkHeader 16 true], [], 24⟩) ∧
      get_size (mkHeader 16 true) < 32 := by
  decide

/-- C6: the claim says resize(p, 0) is equivalent to free(p) followed by
returning null, with no other state change.  The code calls mm_malloc(0)
before testing the zero size, so an extra 16-byte allocated block is
created (here by growing the region) and leaked: on a heap with one
allocated 48-byte block, resize(payload 16, 0) leaves two blocks while
free(payload 16) leaves one. -/
theorem C6_realloc_zero_leak :
    mm_realloc (some 16) 0 ⟨[mkHeader 48 true], [], 100⟩ =
        some (none, ⟨[mkHeader 48 false, mkHeader 16 true], [8], 100⟩, 0) ∧
      mm_free 16 ⟨[mkHeader 48 true], [], 100⟩ =
        some ⟨[mkHeader 48 false], [8], 100⟩ ∧
      (⟨[mkHeader 48 false, mkHeader 16 true], [8], 100⟩ : AllocState) ≠
        ⟨[mkHeader 48 false], [8], 100⟩ := by
  decide

/-- C7: the claim says zero_allocate returns null when the underlying
allocation fails.  The code calls memset on the result of mm_malloc
without a null check: on an exhausted region (empty heap, capacity 8),
mm_malloc(1*1) returns the null pointer and mm_calloc(1, 1) passes it to
memset, which is undefined behaviour (modelled as none) rather than a
null return. -/
theorem C7_calloc_failure_crash :
    (mm_malloc (1 * 1 % WSIZE) ⟨[], [], 8⟩).1 = none ∧
      mm_calloc 1 1 ⟨[], [], 8⟩ = none := by
  decide

/-- C1 counterexample: the claim says a split occurs iff the found block's
size strictly exceeds need + minimum_block_size (= need + 32).  On a
well-formed state whose free list holds one free 64-byte block,
mm_malloc(16) (need = 32) does split -- the heap becomes a 32-byte
allocated block followed by a fresh 32-byte free block at the free-list
head -- even though 64 > 32 + 32 is false, so the claimed equivalence
fails at this input. -/
theorem C1_counterexample :
    mallocNeed 16 = 32 ∧
      mm_malloc 16 ⟨[mkHeader 64 false], [8], 72⟩ =
        (some 16, ⟨[mkHeader 32 true, mkHeader 32 false], [40], 72⟩) ∧
      ¬(64 > mallocNeed 16 + 32) ∧
      (⟨[mkHeader 32 true, mkHeader 32 false], [40], 72⟩ : AllocState) ≠
        ⟨[mkHeader 64 true], [], 72⟩ ∧
      WFb ⟨[mkHeader 64 false], [8], 72⟩ = true := by
  decide

theorem wsize_val : WSIZE = 18446744073709551616 := by decide

/-- get_size recovers an even stored size. -/
theorem get_size_mkHeader (s : Nat) (al : Bool) (h : s % 2 = 0) :
    get_size (mkHeader s al) = s := by
  cases al <;> simp [get_size, mkHeader] <;> omega

/-- is_allocated recovers the stored flag when the size is even. -/
theorem is_allocated_mkHeader (s : Nat) (al : Bool) (h : s % 2 = 0) :
    is_allocated (mkHeader s al) = al := by
  cases al
  · simp only [is_allocated, mkHeader]
    simp
    omega
  · simp only [is_allocated, mkHeader]
    simp
    omega

/-- Without size_t overflow the rounded request is (n + 31) / 16 * 16. -/
theorem mallocNeed_eq (n : Nat) (h : n + 31 < WSIZE) :
    mallocNeed n = (n + 31) / 16 * 16 := by
  show ((HDR + n + FTR) % WSIZE + (ALIGNMENT - 1)) % WSIZE / ALIGNMENT * ALIGNMENT
      = (n + 31) / 16 * 16
  rw [wsize_val] at h ⊢
  simp only [HDR, FTR, ALIGNMENT]
  omega

/-- The rounded request is a multiple of ALIGNMENT. -/
theorem mallocNeed_align (n : Nat) : mallocNeed n % ALIGNMENT = 0 := by
  show (((HDR + n + FTR) % WSIZE + (ALIGNMENT - 1)) % WSIZE / ALIGNMENT * ALIGNMENT)
      % ALIGNMENT = 0
  exact Nat.mul_mod_left _ _

/-- The rounded request covers header, payload and footer. -/
theorem mallocNeed_lb (n : Nat) (h : n + 31 < WSIZE) : n + 16 ≤ mallocNeed n := by
  rw [mallocNeed_eq n h]
  have h1 := Nat.mod_add_div (n + 31) 16
  have h2 : (n + 31) % 16 < 16 := Nat.mod_lt _ (by omega)
  omega

/-- The rounded request wastes less than one ALIGNMENT unit. -/
theorem mallocNeed_ub (n : Nat) (h : n + 31 < WSIZE) : mallocNeed n ≤ n + 31 := by
  rw [mallocNeed_eq n h]
  exact Nat.div_mul_le_self _ _

theorem sizeSum_nil : sizeSum [] = 0 := rfl

theorem sizeSum_cons (b : Blk) (l : List Blk) :
    sizeSum (b :: l) = get_size b + sizeSum l := by
  simp [sizeSum]

theorem sizeSum_append (l1 l2 : List Blk) :
    sizeSum (l1 ++ l2) = sizeSum l1 + sizeSum l2 := by
  simp [sizeSum]

theorem sizeSum_take_succ (l : List Blk) (i : Nat) (b : Blk) (hb : l.get? i = some b) :
    sizeSum (l.take (i + 1)) = sizeSum (l.take i) + get_size b := by
  rw [List.take_succ]
  have hb' : l[i]? = some b := by simpa [← List.get?_eq_getElem?] using hb
  rw [hb']
  simp [sizeSum]

theorem addrAt_succ (l : List Blk) (i : Nat) (b : Blk) (hb : l.get? i = some b) :
    addrAt l (i + 1) = addrAt l i + get_size b := by
  unfold addrAt
  rw [sizeSum_take_succ l i b hb]
  omega

theorem addrAt_mono (l : List Blk) {k m : Nat} (h : k ≤ m) : addrAt l k ≤ addrAt l m := by
  unfold addrAt
  have hsplit : l.take m = l.take k ++ (l.drop k).take (m - k) := by
    rw [← List.take_add]
    congr 1
    omega
  rw [hsplit, sizeSum_append]
  omega

/-- Blocks at distinct indices occupy disjoint extents: the earlier block
ends no later than the later one starts. -/
theorem extent_le (l : List Blk) {k m : Nat} (hk : k < m) (b : Blk)
    (hb : l.get? k = some b) : addrAt l k + get_size b ≤ addrAt l m := by
  rw [← addrAt_succ l k b hb]
  exact addrAt_mono l hk

/-- A successful index search yields a block at that index whose derived
address is the searched one. -/
theorem blockIdxFrom_spec (l : List Blk) :
    ∀ base a i, blockIdxFrom base a l = some i →
      ∃ b, l.get? i = some b ∧ base + sizeSum (l.take i) = a := by
  induction l with
  | nil => intro base a i h; simp [blockIdxFrom] at h
  | cons b bs ih =>
    intro base a i h
    by_cases hab : a = base
    · subst hab
      simp [blockIdxFrom] at h
      subst h
      exact ⟨b, rfl, by simp [sizeSum_nil]⟩
    · simp [blockIdxFrom, hab] at h
      obtain ⟨j, hj, rfl⟩ := h
      obtain ⟨c, hc, haddr⟩ := ih (base + get_size b) a j hj
      refine ⟨c, by simpa using hc, ?_⟩
      rw [List.take_succ_cons, sizeSum_cons]
      omega

/-- blockAtFrom succeeds exactly when blockIdxFrom does, on the block at
the found index. -/
theorem blockAtFrom_eq (l : List Blk) :
    ∀ base a, blockAtFrom base a l = (blockIdxFrom base a l).bind (fun i => l.get? i) := by
  induction l with
  | nil => intro base a; simp [blockAtFrom, blockIdxFrom]
  | cons b bs ih =>
    intro base a
    by_cases hab : a = base
    · simp [blockAtFrom, blockIdxFrom, hab]
    · simp only [blockAtFrom, blockIdxFrom, if_neg hab]
      rw [ih (base + get_size b) a]
      cases blockIdxFrom (base + get_size b) a bs <;> simp

/-- replaceFrom at a found address splices the new blocks in place of the
found block. -/
theorem replaceFrom_eq_splice (l : List Blk) :
    ∀ base a i new, blockIdxFrom base a l = some i →
      replaceFrom base a new l = l.take i ++ new ++ l.drop (i + 1) := by
  induction l with
  | nil => intro base a i new h; simp [blockIdxFrom] at h
  | cons b bs ih =>
    intro base a i new h
    by_cases hab : a = base
    · subst hab
      simp [blockIdxFrom] at h
      subst h
      simp [replaceFrom]
    · simp [blockIdxFrom, hab] at h
      obtain ⟨j, hj, rfl⟩ := h
      simp only [replaceFrom, if_neg hab]
      rw [ih (base + get_size b) a j new hj]
      simp [List.take_succ_cons]

/-- find_fit returns the first free-list node fitting the request. -/
theorem find_fit_go_first (h : List Blk) :
    ∀ fl need a, find_fit_go h fl need = some a →
      ∃ l1 l2, fl = l1 ++ a :: l2 ∧ (∀ x ∈ l1, sizeAt h x < need) ∧
        need ≤ sizeAt h a := by
  intro fl
  induction fl with
  | nil => intro need a hf; simp [find_fit_go] at hf
  | cons x rest ih =>
    intro need a hf
    by_cases hx : need ≤ sizeAt h x
    · simp [find_fit_go, hx] at hf
      subst hf
      exact ⟨[], rest, rfl, by simp, hx⟩
    · simp only [find_fit_go, if_neg hx] at hf
      obtain ⟨l1, l2, rfl, h1, h2⟩ := ih need a hf
      refine ⟨x :: l1, l2, rfl, ?_, h2⟩
      intro y hy
      rcases List.mem_cons.mp hy with rfl | hy'
      · omega
      · exact h1 y hy'

/-- find_fit succeeds whenever some free-list node fits. -/
theorem find_fit_go_some (h : List Blk) :
    ∀ fl need, (∃ x ∈ fl, need ≤ sizeAt h x) →
      ∃ a, find_fit_go h fl need = some a := by
  intro fl
  induction fl with
  | nil => intro need hex; simp at hex
  | cons x rest ih =>
    intro need hex
    by_cases hx : need ≤ sizeAt h x
    · exact ⟨x, by simp [find_fit_go, hx]⟩
    · obtain ⟨y, hy, hfit⟩ := hex
      rcases List.mem_cons.mp hy with rfl | hy'
      · omega
      · obtain ⟨a, ha⟩ := ih need ⟨y, hy', hfit⟩
        exact ⟨a, by simp only [find_fit_go, if_neg hx]; exact ha⟩

/-- A nodupB list does not retain an erased element. -/
theorem nodupB_not_mem_erase {l : List Nat} {a : Nat} (h : nodupB l = true) :
    a ∉ l.erase a := by
  induction l with
  | nil => simp
  | cons x rest ih =>
    simp only [nodupB, Bool.and_eq_true, Bool.not_eq_true'] at h
    obtain ⟨hx, hrest⟩ := h
    by_cases hax : x = a
    · subst hax
      rw [List.erase_cons_head]
      simp [List.contains] at hx
      exact hx
    · rw [List.erase_cons_tail (by simpa using hax)]
      intro hmem
      rcases List.mem_cons.mp hmem with h1 | h2
      · exact hax h1.symm
      · exact ih hrest h2

/-- Size bounds of every block of a sizesOkB heap. -/
theorem sizesOk_mem {h : List Blk} (hs : sizesOkB h = true) {b : Blk} (hb : b ∈ h) :
    get_size b % ALIGNMENT = 0 ∧ ALIGNMENT ≤ get_size b ∧ get_size b < WSIZE := by
  have h1 := List.all_eq_true.mp hs b hb
  simp only [Bool.and_eq_true, beq_iff_eq, decide_eq_true_eq] at h1
  exact ⟨h1.1.1, h1.1.2, h1.2⟩

/-- Every free-list address of a freeOkB state is the base of a free block. -/
theorem freeOk_mem {st : AllocState} (hf : freeOkB st = true) {a : Nat}
    (ha : a ∈ st.freeList) :
    ∃ b, blockAt st.heap a = some b ∧ is_allocated b = false := by
  have h1 := List.all_eq_true.mp hf a ha
  cases hb : blockAt st.heap a with
  | none => rw [hb] at h1; simp at h1
  | some b =>
    rw [hb] at h1
    simp only [Bool.not_eq_true'] at h1
    exact ⟨b, rfl, h1⟩

/-- A block found by address is a member of the heap. -/
theorem blockAtFrom_mem (l : List Blk) :
    ∀ base a b, blockAtFrom base a l = some b → b ∈ l := by
  induction l with
  | nil => intro base a b h; simp [blockAtFrom] at h
  | cons c cs ih =>
    intro base a b h
    by_cases hab : a = base
    · simp [blockAtFrom, hab] at h
      subst h
      exact List.mem_cons_self _ _
    · simp only [blockAtFrom, if_neg hab] at h
      exact List.mem_cons_of_mem _ (ih _ _ _ h)

/-- Components of well-formedness. -/
theorem WFb_parts {st : AllocState} (h : WFb st = true) :
    sizesOkB st.heap = true ∧ freeOkB st = true ∧ freeCompleteB st = true ∧
      nodupB st.freeList = true := by
  simp only [WFb, Bool.and_eq_true] at h
  tauto

theorem sizeAt_eq {h : List Blk} {a : Nat} {b : Blk} (hb : blockAt h a = some b) :
    sizeAt h a = get_size b := by
  simp [sizeAt, hb]

/-- A block found by address sits at a definite index with that derived
address. -/
theorem blockAt_idx {h : List Blk} {a : Nat} {b : Blk} (hb : blockAt h a = some b) :
    ∃ i, blockIdx h a = some i ∧ h.get? i = some b ∧ addrAt h i = a := by
  unfold blockAt at hb
  rw [blockAtFrom_eq] at hb
  cases hidx : blockIdxFrom heapBase a h with
  | none => rw [hidx] at hb; simp at hb
  | some i =>
    rw [hidx] at hb
    simp only [Option.some_bind] at hb
    obtain ⟨c, hc, haddr⟩ := blockIdxFrom_spec h heapBase a i hidx
    exact ⟨i, hidx, hb, by unfold addrAt; omega⟩

/-- The heap splits around any indexed block. -/
theorem sizeSum_decomp (l : List Blk) (i : Nat) (b : Blk) (hb : l.get? i = some b) :
    sizeSum l = sizeSum (l.take i) + get_size b + sizeSum (l.drop (i + 1)) := by
  obtain ⟨hlen, -⟩ := List.get?_eq_some.mp hb
  conv_lhs => rw [← List.take_append_drop i l]
  rw [List.drop_eq_get_cons hlen, sizeSum_append, sizeSum_cons]
  have : l.get ⟨i, hlen⟩ = b := by
    have := List.get?_eq_get hlen
    rw [this] at hb
    exact Option.some.inj hb
  rw [this]
  omega

/-- replaceBlk at a found index is the take/drop splice. -/
theorem replaceBlk_eq {h : List Blk} {a : Nat} {i : Nat}
    (hi : blockIdx h a = some i) (new : List Blk) :
    replaceBlk h a new = h.take i ++ new ++ h.drop (i + 1) :=
  replaceFrom_eq_splice h heapBase a i new hi

/-- C8: if some block reachable from the free-list head fits the rounded
request, mm_malloc serves the request from the first fitting node in list
order: it returns that block's payload, removes the node from the free
list, and leaves the total of block sizes (hence the region break)
unchanged. -/
theorem C8_first_fit (st : AllocState) (n : Nat)
    (hwf : WFb st = true) (hn : n + 31 < WSIZE)
    (hex : ∃ x ∈ st.freeList, mallocNeed n ≤ sizeAt st.heap x) :
    ∃ a l1 l2,
      st.freeList = l1 ++ a :: l2 ∧
      (∀ x ∈ l1, sizeAt st.heap x < mallocNeed n) ∧
      mallocNeed n ≤ sizeAt st.heap a ∧
      (mm_malloc n st).1 = some (a + HDR) ∧
      a ∉ (mm_malloc n st).2.freeList ∧
      sizeSum (mm_malloc n st).2.heap = sizeSum st.heap := by
  obtain ⟨hsz, hfo, -, hnd⟩ := WFb_parts hwf
  obtain ⟨a, hf⟩ := find_fit_go_some st.heap st.freeList (mallocNeed n) hex
  obtain ⟨l1, l2, hdec, hless, hfit⟩ := find_fit_go_first st.heap st.freeList (mallocNeed n) a hf
  have hmem : a ∈ st.freeList := by rw [hdec]; simp
  obtain ⟨b, hba, hfree⟩ := freeOk_mem hfo hmem
  obtain ⟨i, hidx, hget, haddr⟩ := blockAt_idx hba
  have hsb := sizesOk_mem hsz (blockAtFrom_mem st.heap heapBase a b hba)
  have hm16 : get_size b % 16 = 0 := by simpa [ALIGNMENT] using hsb.1
  have hsa : sizeAt st.heap a = get_size b := sizeAt_eq hba
  have hneed16 : mallocNeed n % 16 = 0 := by simpa [ALIGNMENT] using mallocNeed_align n
  have hges : mallocNeed n ≤ get_size b := by rw [hsa] at hfit; exact hfit
  have hpos : 0 < mallocNeed n := by
    have := mallocNeed_lb n hn
    omega
  have hνα : a ∉ st.freeList.erase a := nodupB_not_mem_erase hnd
  have hff : find_fit st (mallocNeed n) = some a := hf
  refine ⟨a, l1, l2, hdec, hless, hfit, ?_, ?_, ?_⟩
  · simp only [mm_malloc, hff]
    split <;> rfl
  · simp only [mm_malloc, hff]
    split
    · simp only [List.mem_cons]
      rintro (h1 | h2)
      · omega
      · exact hνα h2
    · exact hνα
  · simp only [mm_malloc, hff]
    have heven : get_size b % 2 = 0 := by omega
    have hneven : mallocNeed n % 2 = 0 := by omega
    have hdiff : (get_size b - mallocNeed n) % 2 = 0 := by omega
    split
    · rw [hsa, replaceBlk_eq hidx, sizeSum_append, sizeSum_append, sizeSum_cons,
        sizeSum_cons, sizeSum_nil, get_size_mkHeader _ _ hneven,
        get_size_mkHeader _ _ hdiff]
      conv_rhs => rw [sizeSum_decomp st.heap i b hget]
      omega
    · rw [hsa, replaceBlk_eq hidx, sizeSum_append, sizeSum_append, sizeSum_cons,
        sizeSum_nil, get_size_mkHeader _ _ heven]
      conv_rhs => rw [sizeSum_decomp st.heap i b hget]
      omega

/-- C8 witness: one free 64-byte block on the list fits a 16-byte request. -/
theorem C8_first_fit_witness :
    ∃ a l1 l2,
      (⟨[mkHeader 64 false], [8], 72⟩ : AllocState).freeList = l1 ++ a :: l2 ∧
      (∀ x ∈ l1, sizeAt [mkHeader 64 false] x < mallocNeed 16) ∧
      mallocNeed 16 ≤ sizeAt [mkHeader 64 false] a ∧
      (mm_malloc 16 ⟨[mkHeader 64 false], [8], 72⟩).1 = some (a + HDR) ∧
      a ∉ (mm_malloc 16 ⟨[mkHeader 64 false], [8], 72⟩).2.freeList ∧
      sizeSum (mm_malloc 16 ⟨[mkHeader 64 false], [8], 72⟩).2.heap =
        sizeSum [mkHeader 64 false] :=
  C8_first_fit ⟨[mkHeader 64 false], [8], 72⟩ 16 (by decide) (by decide)
    ⟨8, by decide, by decide⟩

/-- C1 (amended): for a request served from the free list, mm_malloc
splits the found block if and only if the block's size strictly exceeds
need + header + footer = need + 16 -- equivalently, block sizes being
ALIGNMENT multiples, iff block.size ≥ need + minimum_block_size
(= need + 32), the threshold the spec's design notes recommend -- and not
iff block.size > need + minimum_block_size as the claim states.  When the
split happens, the low part is the allocated block of size need and the
high part is a new free block of size block.size - need whose address is
pushed at the free-list head. -/
theorem C1_split_threshold (st : AllocState) (n a : Nat)
    (hwf : WFb st = true) (hn : n + 47 < WSIZE)
    (hf : find_fit st (mallocNeed n) = some a) :
    ((mm_malloc n st).1 = some (a + HDR) ∧
     (mm_malloc n st).2.heap =
        replaceBlk st.heap a
          [mkHeader (mallocNeed n) true,
           mkHeader (sizeAt st.heap a - mallocNeed n) false] ∧
     (mm_malloc n st).2.freeList = (a + mallocNeed n) :: st.freeList.erase a) ↔
    mallocNeed n + 32 ≤ sizeAt st.heap a := by
  obtain ⟨hsz, hfo, -, -⟩ := WFb_parts hwf
  obtain ⟨l1, l2, hdec, -, hfit⟩ :=
    find_fit_go_first st.heap st.freeList (mallocNeed n) a hf
  have hmem : a ∈ st.freeList := by rw [hdec]; simp
  obtain ⟨b, hba, -⟩ := freeOk_mem hfo hmem
  have hsb := sizesOk_mem hsz (blockAtFrom_mem st.heap heapBase a b hba)
  have hm16 : get_size b % 16 = 0 := by simpa [ALIGNMENT] using hsb.1
  have hsa : sizeAt st.heap a = get_size b := sizeAt_eq hba
  have hneed16 : mallocNeed n % 16 = 0 := by
    simpa [ALIGNMENT] using mallocNeed_align n
  have hub : mallocNeed n ≤ n + 31 := mallocNeed_ub n (by omega)
  have hcond : (HDR + mallocNeed n + FTR) % WSIZE = mallocNeed n + 16 := by
    rw [wsize_val] at hn ⊢
    simp only [HDR, FTR]
    omega
  constructor
  · rintro ⟨-, -, hfl⟩
    by_contra hlt
    push_neg at hlt
    have hnogo : ¬ ((HDR + mallocNeed n + FTR) % WSIZE < sizeAt st.heap a) := by
      rw [hcond, hsa] at *
      omega
    simp only [mm_malloc, hf, if_neg hnogo] at hfl
    have hl := congrArg List.length hfl
    simp only [List.length_cons] at hl
    omega
  · intro h32
    have hgo : (HDR + mallocNeed n + FTR) % WSIZE < sizeAt st.heap a := by
      rw [hcond]
      omega
    simp only [mm_malloc, hf, if_pos hgo]
    exact ⟨trivial, trivial, trivial⟩

/-- C1 witness: a free 64-byte block and a 16-byte request (need 32): the
threshold 32 + 32 ≤ 64 is met with equality and the split happens. -/
theorem C1_split_threshold_witness :
    ((mm_malloc 16 ⟨[mkHeader 64 false], [8], 72⟩).1 = some (8 + HDR) ∧
     (mm_malloc 16 ⟨[mkHeader 64 false], [8], 72⟩).2.heap =
        replaceBlk [mkHeader 64 false] 8
          [mkHeader (mallocNeed 16) true,
           mkHeader (sizeAt [mkHeader 64 false] 8 - mallocNeed 16) false] ∧
     (mm_malloc 16 ⟨[mkHeader 64 false], [8], 72⟩).2.freeList =
        (8 + mallocNeed 16) :: ([8] : List Nat).erase 8) ↔
    mallocNeed 16 + 32 ≤ sizeAt [mkHeader 64 false] 8 :=
  C1_split_threshold ⟨[mkHeader 64 false], [8], 72⟩ 16 8 (by decide) (by decide)
    (by decide)

theorem sizeSum_mod_16 (l : List Blk) (H : ∀ b ∈ l, get_size b % 16 = 0) :
    sizeSum l % 16 = 0 := by
  induction l with
  | nil => simp [sizeSum_nil]
  | cons b bs ih =>
    rw [sizeSum_cons]
    have hb := H b (List.mem_cons_self _ _)
    have hbs := ih (fun c hc => H c (List.mem_cons_of_mem _ hc))
    omega

/-- Every block base address of a well-sized heap is 8 modulo 16, so every
payload address is ALIGNMENT-aligned. -/
theorem addr_mod_16 {h : List Blk} (hs : sizesOkB h = true) (i : Nat) :
    addrAt h i % 16 = 8 := by
  unfold addrAt heapBase
  have hmod : sizeSum (h.take i) % 16 = 0 := by
    apply sizeSum_mod_16
    intro b hb
    simpa [ALIGNMENT] using (sizesOk_mem hs (List.mem_of_mem_take hb)).1
  omega

/-- C9: resize(null, 0) is allocate(0), not a zero-size free: the null
test of mm_realloc runs before the zero-size test, so the call forwards
mm_malloc(0)'s result, and (when the region can grow by the 16 rounded
bytes) that result is a fresh non-null ALIGNMENT-aligned payload, not
null. -/
theorem C9_realloc_null_zero (st : AllocState)
    (hwf : WFb st = true) (hgrow : brkOf st + 16 ≤ st.cap) :
    mm_realloc none 0 st = some ((mm_malloc 0 st).1, (mm_malloc 0 st).2, 0) ∧
    ∃ q, (mm_malloc 0 st).1 = some q ∧ q % ALIGNMENT = 0 ∧ 0 < q := by
  obtain ⟨hsz, hfo, -, -⟩ := WFb_parts hwf
  refine ⟨rfl, ?_⟩
  cases hf : find_fit st (mallocNeed 0) with
  | some a =>
    obtain ⟨l1, l2, hdec, -, -⟩ :=
      find_fit_go_first st.heap st.freeList (mallocNeed 0) a hf
    have hmem : a ∈ st.freeList := by rw [hdec]; simp
    obtain ⟨b, hba, -⟩ := freeOk_mem hfo hmem
    obtain ⟨i, -, -, haddr⟩ := blockAt_idx hba
    have hmod : a % 16 = 8 := by rw [← haddr]; exact addr_mod_16 hsz i
    refine ⟨a + HDR, ?_, ?_, ?_⟩
    · simp only [mm_malloc, hf]
      split <;> rfl
    · simp only [ALIGNMENT, HDR]
      omega
    · simp only [HDR]
      omega
  | none =>
    have hok : brkOf st + mallocNeed 0 ≤ st.cap := by
      have hne : mallocNeed 0 = 16 := by decide
      rw [hne]
      exact hgrow
    refine ⟨brkOf st + HDR, ?_, ?_, ?_⟩
    · simp only [mm_malloc, hf, if_pos hok]
    · have hm : sizeSum st.heap % 16 = 0 := by
        apply sizeSum_mod_16
        intro b hb
        simpa [ALIGNMENT] using (sizesOk_mem hsz hb).1
      simp only [ALIGNMENT, HDR, brkOf, heapBase]
      omega
    · simp only [HDR]
      omega

/-- C9 witness: a fresh empty heap with room for the 16-byte block. -/
theorem C9_realloc_null_zero_witness :
    (mm_realloc none 0 ⟨[], [], 24⟩ =
        some ((mm_malloc 0 ⟨[], [], 24⟩).1, (mm_malloc 0 ⟨[], [], 24⟩).2, 0) ∧
      ∃ q, (mm_malloc 0 ⟨[], [], 24⟩).1 = some q ∧ q % ALIGNMENT = 0 ∧ 0 < q) :=
  C9_realloc_null_zero ⟨[], [], 24⟩ (by decide) (by decide)

/-- Stored sizes are even by construction of get_size. -/
theorem get_size_even (b : Blk) : get_size b % 2 = 0 := by
  unfold get_size
  omega

/-- noAdjFree says exactly that consecutive blocks are never both free. -/
theorem noAdjFree_iff (l : List Blk) :
    noAdjFree l = true ↔
      ∀ k x y, l.get? k = some x → l.get? (k + 1) = some y →
        (is_allocated x || is_allocated y) = true := by
  induction l with
  | nil =>
    simp only [noAdjFree]
    constructor
    · intro _ k x y hx hy
      simp at hx
    · intro _
      trivial
  | cons b bs ih =>
    cases bs with
    | nil =>
      simp only [noAdjFree]
      constructor
      · intro _ k x y hx hy
        cases k with
        | zero => simp at hy
        | succ m => simp at hx
      · intro _
        trivial
    | cons c cs =>
      simp only [noAdjFree, Bool.and_eq_true]
      rw [ih]
      constructor
      · rintro ⟨h0, hrest⟩ k x y hx hy
        cases k with
        | zero =>
          simp only [List.get?] at hx hy
          obtain rfl := Option.some.inj hx
          obtain rfl := Option.some.inj hy
          exact h0
        | succ m => exact hrest m x y hx hy
      · intro H
        exact ⟨H 0 b c rfl rfl, fun m x y hx hy => H (m + 1) x y hx hy⟩

theorem splice_get?_lt {α : Type} (l new : List α) {i j k : Nat} (hk : k < i)
    (hi : i ≤ l.length) :
    (l.take i ++ new ++ l.drop j).get? k = l.get? k := by
  have h1 : (l.take i).length = i := by rw [List.length_take]; omega
  rw [List.get?_append (by rw [List.length_append, h1]; omega)]
  rw [List.get?_append (by rw [h1]; omega)]
  exact List.get?_take hk

theorem splice_get?_mid {α : Type} (l new : List α) {i j k : Nat}
    (hi : i ≤ l.length) (hk : k < new.length) :
    (l.take i ++ new ++ l.drop j).get? (i + k) = new.get? k := by
  have h1 : (l.take i).length = i := by rw [List.length_take]; omega
  rw [List.get?_append (by rw [List.length_append, h1]; omega)]
  rw [List.get?_append_right (by rw [h1]; omega)]
  rw [h1]
  rw [show i + k - i = k by omega]

theorem splice_get?_ge {α : Type} (l new : List α) {i j k : Nat}
    (hi : i ≤ l.length) :
    (l.take i ++ new ++ l.drop j).get? (i + new.length + k) = l.get? (j + k) := by
  have h1 : (l.take i).length = i := by rw [List.length_take]; omega
  rw [List.get?_append_right (by rw [List.length_append, h1]; omega)]
  rw [List.length_append, h1]
  rw [show i + new.length + k - (i + new.length) = k by omega]
  exact List.get?_drop l j k

/-- Splicing a no-adjacent-free segment into a no-adjacent-free heap
preserves the invariant when both seams are safe. -/
theorem noAdjFree_splice (l new : List Blk) (i j : Nat)
    (hne : 0 < new.length) (hij : i ≤ j) (hjl : j ≤ l.length)
    (ha : noAdjFree l = true) (hb : noAdjFree new = true)
    (hc : ∀ x y, l.get? (i - 1) = some x → 0 < i → new.get? 0 = some y →
      (is_allocated x || is_allocated y) = true)
    (hd : ∀ x y, new.get? (new.length - 1) = some x → l.get? j = some y →
      (is_allocated x || is_allocated y) = true) :
    noAdjFree (l.take i ++ new ++ l.drop j) = true := by
  have hiL : i ≤ l.length := le_trans hij hjl
  rw [noAdjFree_iff] at ha hb ⊢
  intro k x y hx hy
  by_cases h1 : k + 1 < i
  · rw [splice_get?_lt l new (by omega) hiL] at hx
    rw [splice_get?_lt l new h1 hiL] at hy
    exact ha k x y hx hy
  · by_cases h2 : k + 1 < i + new.length
    · by_cases h3 : k < i
      · have hipos : 0 < i := by omega
        have hk : k = i - 1 := by omega
        subst hk
        rw [splice_get?_lt l new (by omega) hiL] at hx
        rw [show i - 1 + 1 = i + 0 by omega,
          splice_get?_mid l new hiL (by omega)] at hy
        exact hc x y hx hipos hy
      · obtain ⟨m, rfl⟩ : ∃ m, k = i + m := ⟨k - i, by omega⟩
        rw [splice_get?_mid l new hiL (by omega)] at hx
        rw [show i + m + 1 = i + (m + 1) by omega,
          splice_get?_mid l new hiL (by omega)] at hy
        exact hb m x y hx hy
    · by_cases h4 : k < i + new.length
      · obtain ⟨m, hm⟩ : ∃ m, k = i + m := ⟨k - i, by omega⟩
        have hmlen : m = new.length - 1 := by omega
        subst hm
        subst hmlen
        rw [splice_get?_mid l new hiL (by omega)] at hx
        rw [show i + (new.length - 1) + 1 = i + new.length + 0 by omega,
          splice_get?_ge l new hiL] at hy
        rw [show j + 0 = j by omega] at hy
        exact hd x y hx hy
      · obtain ⟨m, rfl⟩ : ∃ m, k = i + new.length + m := ⟨k - i - new.length, by omega⟩
        rw [splice_get?_ge l new hiL] at hx
        rw [show i + new.length + m + 1 = i + new.length + (m + 1) by omega,
          splice_get?_ge l new hiL] at hy
        rw [show j + (m + 1) = j + m + 1 by omega] at hy
        exact ha (j + m) x y hx hy

/-- mm_malloc preserves the no-adjacent-free invariant. -/
theorem malloc_noAdj (st : AllocState) (n : Nat)
    (hfo : freeOkB st = true) (hna : noAdjFree st.heap = true) :
    noAdjFree (mm_malloc n st).2.heap = true := by
  have hneed2 : mallocNeed n % 2 = 0 := by
    have := mallocNeed_align n
    simp only [ALIGNMENT] at this
    omega
  cases hf : find_fit st (mallocNeed n) with
  | none =>
    by_cases hok : brkOf st + mallocNeed n ≤ st.cap
    · simp only [mm_malloc, hf, if_pos hok]
      have heq : st.heap ++ [mkHeader (mallocNeed n) true] =
          st.heap.take st.heap.length ++ [mkHeader (mallocNeed n) true] ++
            st.heap.drop st.heap.length := by
        simp
      rw [heq]
      apply noAdjFree_splice st.heap _ st.heap.length st.heap.length (by simp)
        le_rfl le_rfl hna
      · simp [noAdjFree]
      · intro x y hx hi0 hy
        obtain rfl := Option.some.inj hy
        rw [is_allocated_mkHeader _ _ hneed2]
        simp
      · intro x y hx hy
        have h0 : st.heap.get? st.heap.length = none := List.get?_len_le le_rfl
        rw [h0] at hy
        exact Option.noConfusion hy
    · simp only [mm_malloc, hf, if_neg hok]
      exact hna
  | some a =>
    obtain ⟨l1, l2, hdec, -, -⟩ :=
      find_fit_go_first st.heap st.freeList (mallocNeed n) a hf
    have hmem : a ∈ st.freeList := by rw [hdec]; simp
    obtain ⟨b, hba, hfree⟩ := freeOk_mem hfo hmem
    obtain ⟨i, hidx, hget, -⟩ := blockAt_idx hba
    have hsa : sizeAt st.heap a = get_size b := sizeAt_eq hba
    have hlen : i < st.heap.length := (List.get?_eq_some.mp hget).1
    have hseven : get_size b % 2 = 0 := get_size_even b
    have hdeven : (get_size b - mallocNeed n) % 2 = 0 := by omega
    by_cases hcnd : (HDR + mallocNeed n + FTR) % WSIZE < sizeAt st.heap a
    · simp only [mm_malloc, hf, if_pos hcnd]
      rw [hsa, replaceBlk_eq hidx]
      apply noAdjFree_splice st.heap _ i (i + 1) (by simp) (by omega) (by omega) hna
      · simp [noAdjFree, is_allocated_mkHeader _ _ hneed2]
      · intro x y hx hi0 hy
        obtain rfl := Option.some.inj hy
        rw [is_allocated_mkHeader _ _ hneed2]
        simp
      · intro x y hx hy
        obtain rfl := Option.some.inj hx
        have hpair := (noAdjFree_iff st.heap).mp hna i b y hget hy
        rw [hfree] at hpair
        simp only [Bool.false_or] at hpair
        simp [hpair]
    · simp only [mm_malloc, hf, if_neg hcnd]
      rw [hsa, replaceBlk_eq hidx]
      apply noAdjFree_splice st.heap _ i (i + 1) (by simp) (by omega) (by omega) hna
      · simp [noAdjFree]
      · intro x y hx hi0 hy
        obtain rfl := Option.some.inj hy
        rw [is_allocated_mkHeader _ _ hseven]
        simp
      · intro x y hx hy
        obtain rfl := Option.some.inj hx
        rw [is_allocated_mkHeader _ _ hseven]
        simp

/-- coalesce_helper preserves the no-adjacent-free invariant. -/
theorem coalesce_noAdj (heap : List Blk) (fl : List Nat) (i : Nat) (b : Blk)
    (hi : heap.get? i = some b) (hna : noAdjFree heap = true) :
    noAdjFree (coalesce_helper heap fl i).1 = true := by
  have hlen : i < heap.length := (List.get?_eq_some.mp hi).1
  have hgetD : (heap.get? i).getD ⟨0⟩ = b := by rw [hi]; rfl
  have hiff := (noAdjFree_iff heap).mp hna
  by_cases hP : isFreeO (if i = 0 then none else heap.get? (i - 1)) = true
  case pos =>
    have hi0 : i ≠ 0 := by
      intro h0
      rw [h0] at hP
      simp [isFreeO] at hP
    obtain ⟨pb, hpb, hpfree⟩ :
        ∃ pb, heap.get? (i - 1) = some pb ∧ is_allocated pb = false := by
      rw [if_neg hi0] at hP
      cases hq : heap.get? (i - 1) with
      | none => rw [hq] at hP; simp [isFreeO] at hP
      | some pb =>
        rw [hq] at hP
        simp only [isFreeO, Bool.not_eq_true'] at hP
        exact ⟨pb, rfl, hP⟩
    have hcL : ∀ x : Blk, heap.get? (i - 1 - 1) = some x → 0 < i - 1 →
        is_allocated x = true := by
      intro x hx hpos
      have hpair := hiff (i - 1 - 1) x pb hx
        (by rw [show i - 1 - 1 + 1 = i - 1 by omega]; exact hpb)
      rw [hpfree] at hpair
      simpa using hpair
    by_cases hN : isFreeO (heap.get? (i + 1)) = true
    case pos =>
      obtain ⟨nb, hnb, hnfree⟩ :
          ∃ nb, heap.get? (i + 1) = some nb ∧ is_allocated nb = false := by
        cases hq : heap.get? (i + 1) with
        | none => rw [hq] at hN; simp [isFreeO] at hN
        | some nb =>
          rw [hq] at hN
          simp only [isFreeO, Bool.not_eq_true'] at hN
          exact ⟨nb, rfl, hN⟩
      have hres : (coalesce_helper heap fl i).1 =
          heap.take (i - 1) ++
            [mkHeader (get_size pb + get_size b + get_size nb) false] ++
            heap.drop (i + 2) := by
        simp only [coalesce_helper, hgetD, if_neg hi0, hpb, hnb]
        simp [isFreeO, hpfree, hnfree]
      rw [hres]
      have hn1 : i + 1 < heap.length := (List.get?_eq_some.mp hnb).1
      apply noAdjFree_splice heap _ (i - 1) (i + 2) (by simp) (by omega)
        (by omega) hna
      · simp [noAdjFree]
      · intro x y hx hpos hy
        simp [hcL x hx hpos]
      · intro x y hx hy
        have hpair := hiff (i + 1) nb y hnb hy
        rw [hnfree] at hpair
        simp only [Bool.false_or] at hpair
        simp [hpair]
    case neg =>
      have hN' : isFreeO (heap.get? (i + 1)) = false := by simpa using hN
      have hres : (coalesce_helper heap fl i).1 =
          heap.take (i - 1) ++ [mkHeader (get_size pb + get_size b) false] ++
            heap.drop (i + 1) := by
        simp only [coalesce_helper, hgetD, if_neg hi0, hpb, hN']
        simp [isFreeO, hpfree]
      rw [hres]
      apply noAdjFree_splice heap _ (i - 1) (i + 1) (by simp) (by omega)
        (by omega) hna
      · simp [noAdjFree]
      · intro x y hx hpos hy
        simp [hcL x hx hpos]
      · intro x y hx hy
        rw [hy] at hN'
        simp [isFreeO] at hN'
        simp [hN']
  case neg =>
    have hP' : isFreeO (if i = 0 then none else heap.get? (i - 1)) = false := by
      simpa using hP
    have hcL : ∀ x : Blk, heap.get? (i - 1) = some x → 0 < i →
        is_allocated x = true := by
      intro x hx hpos
      have h := hP'
      rw [if_neg (by omega : ¬ i = 0), hx] at h
      simpa [isFreeO] using h
    by_cases hN : isFreeO (heap.get? (i + 1)) = true
    case pos =>
      obtain ⟨nb, hnb, hnfree⟩ :
          ∃ nb, heap.get? (i + 1) = some nb ∧ is_allocated nb = false := by
        cases hq : heap.get? (i + 1) with
        | none => rw [hq] at hN; simp [isFreeO] at hN
        | some nb =>
          rw [hq] at hN
          simp only [isFreeO, Bool.not_eq_true'] at hN
          exact ⟨nb, rfl, hN⟩
      have hnval : isFreeO (some nb) = true := by simp [isFreeO, hnfree]
      have hres : (coalesce_helper heap fl i).1 =
          heap.take i ++ [mkHeader (get_size b + get_size nb) false] ++
            heap.drop (i + 2) := by
        have hP2 := hP'
        simp only [List.get?_eq_getElem?] at hP2
        simp only [coalesce_helper, hgetD, hnb]
        simp [hP2, hnval]
      rw [hres]
      have hn1 : i + 1 < heap.length := (List.get?_eq_some.mp hnb).1
      apply noAdjFree_splice heap _ i (i + 2) (by simp) (by omega) (by omega) hna
      · simp [noAdjFree]
      · intro x y hx hpos hy
        simp [hcL x hx hpos]
      · intro x y hx hy
        have hpair := hiff (i + 1) nb y hnb hy
        rw [hnfree] at hpair
        simp only [Bool.false_or] at hpair
        simp [hpair]
    case neg =>
      have hN' : isFreeO (heap.get? (i + 1)) = false := by simpa using hN
      have hres : (coalesce_helper heap fl i).1 =
          heap.take i ++ [mkHeader (get_size b) false] ++ heap.drop (i + 1) := by
        have hP2 := hP'
        have hN2 := hN'
        simp only [List.get?_eq_getElem?] at hP2 hN2
        simp only [coalesce_helper, hgetD]
        simp [hP2, hN2]
      rw [hres]
      apply noAdjFree_splice heap _ i (i + 1) (by simp) (by omega) (by omega) hna
      · simp [noAdjFree]
      · intro x y hx hpos hy
        simp [hcL x hx hpos]
      · intro x y hx hy
        rw [hy] at hN'
        simp [isFreeO] at hN'
        simp [hN']

/-- mm_free preserves the no-adjacent-free invariant. -/
theorem free_noAdj (st : AllocState) (p : Nat) (st' : AllocState)
    (hf : mm_free p st = some st') (hna : noAdjFree st.heap = true) :
    noAdjFree st'.heap = true := by
  simp only [mm_free] at hf
  cases hidx : blockIdx st.heap (p - HDR) with
  | none => rw [hidx] at hf; exact Option.noConfusion hf
  | some i =>
    simp only [hidx] at hf
    split at hf
    · exact Option.noConfusion hf
    · obtain rfl := Option.some.inj hf
      obtain ⟨b, hget, -⟩ := blockIdxFrom_spec st.heap heapBase (p - HDR) i hidx
      exact coalesce_noAdj st.heap _ i b hget hna

/-- Memory-safe facade operations preserve the no-adjacent-free
invariant: from a well-formed state with no two adjacent free blocks,
mm_malloc always, and mm_free, mm_realloc and mm_calloc whenever the
model completes them (in particular, whenever no block below MIN_BLOCK
is freed), leave a heap with no two physically adjacent free blocks. -/
theorem noAdjFree_facade (st : AllocState) (n k s : Nat) (p : Option Nat)
    (hwf : WFb st = true) (hna : noAdjFree st.heap = true) :
    noAdjFree (mm_malloc n st).2.heap = true ∧
    (∀ st', mm_free_p p st = some st' → noAdjFree st'.heap = true) ∧
    (∀ r st' len, mm_realloc p n st = some (r, st', len) →
      noAdjFree st'.heap = true) ∧
    (∀ r st', mm_calloc k s st = some (r, st') → noAdjFree st'.heap = true) := by
  obtain ⟨-, hfo, -, -⟩ := WFb_parts hwf
  have hm := malloc_noAdj st n hfo hna
  refine ⟨hm, ?_, ?_, ?_⟩
  · intro st' hf
    cases p with
    | none =>
      obtain rfl := Option.some.inj hf
      exact hna
    | some q => exact free_noAdj st q st' hf hna
  · intro r st' len hr
    cases p with
    | none =>
      simp only [mm_realloc] at hr
      have h2 := congrArg (fun t => t.2.1) (Option.some.inj hr)
      simp only at h2
      rw [← h2]
      exact hm
    | some q =>
      by_cases hn0 : n = 0
      · subst hn0
        simp only [mm_realloc, eq_self_iff_true, if_true] at hr
        rw [Option.map_eq_some'] at hr
        obtain ⟨st2, hst2, heq⟩ := hr
        have h2 := congrArg (fun t => t.2.1) heq
        simp only at h2
        rw [← h2]
        exact free_noAdj (mm_malloc 0 st).2 q st2 hst2 hm
      · cases hm1 : (mm_malloc n st).1 with
        | none =>
          simp only [mm_realloc, if_neg hn0, hm1] at hr
          exact Option.noConfusion hr
        | some np =>
          simp only [mm_realloc, if_neg hn0, hm1] at hr
          rw [Option.map_eq_some'] at hr
          obtain ⟨st2, hst2, heq⟩ := hr
          have h2 := congrArg (fun t => t.2.1) heq
          simp only at h2
          rw [← h2]
          exact free_noAdj (mm_malloc n st).2 q st2 hst2 hm
  · intro r st' hr
    have hmk := malloc_noAdj st (k * s % WSIZE) hfo hna
    cases hm1 : (mm_malloc (k * s % WSIZE) st).1 with
    | none =>
      simp only [mm_calloc, hm1] at hr
      exact Option.noConfusion hr
    | some q =>
      simp only [mm_calloc, hm1] at hr
      have h2 := congrArg (fun t => t.2) (Option.some.inj hr)
      simp only at h2
      rw [← h2]
      exact hmk

/-- Concrete instance of noAdjFree_facade: one allocated 48-byte block;
allocate 24 more bytes, free the original payload, resize it, and
zero-allocate 2 x 8 bytes. -/
theorem noAdjFree_facade_inst :
    noAdjFree (mm_malloc 24 ⟨[mkHeader 48 true], [], 200⟩).2.heap = true ∧
    (∀ st', mm_free_p (some 16) ⟨[mkHeader 48 true], [], 200⟩ = some st' →
      noAdjFree st'.heap = true) ∧
    (∀ r st' len, mm_realloc (some 16) 24 ⟨[mkHeader 48 true], [], 200⟩ =
        some (r, st', len) → noAdjFree st'.heap = true) ∧
    (∀ r st', mm_calloc 2 8 ⟨[mkHeader 48 true], [], 200⟩ = some (r, st') →
      noAdjFree st'.heap = true) :=
  noAdjFree_facade ⟨[mkHeader 48 true], [], 200⟩ 24 2 8 (some 16)
    (by decide) (by decide)

/-- C3: the claim says that after every facade operation returns, no two
physically adjacent heap blocks are both free.  The code violates this
through the unclamped allocate(0): the facade trace init; a =
allocate(24); b = allocate(0); c = allocate(24); d = allocate(24); write
zeros into c's payload; free(a); free(b) ends, in fully defined
executions of the source, with the physical walk showing the merged free
block spanning bytes 8..80 immediately followed by a free header at 80
-- two adjacent free blocks -- because free(b) on the 16-byte block
writes its free-list next word over c's header and the coalesce then
merges with and unlinks that phantom free block through c's payload
bytes.  This theorem exhibits the state just before the final free --
well formed, minimum sizes violated only by the allocate(0) block, and
no two adjacent free blocks -- and shows the model maps that free of the
16-byte block to none (heap corruption), not to any state satisfying the
claimed postcondition. -/
theorem C3_small_block_free_unsafe :
    WFb ⟨[mkHeader 48 false, mkHeader 16 true, mkHeader 48 true, mkHeader 48 true],
        [8], 200⟩ = true ∧
      noAdjFree [mkHeader 48 false, mkHeader 16 true, mkHeader 48 true,
        mkHeader 48 true] = true ∧
      get_size (mkHeader 16 true) < MIN_BLOCK ∧
      mm_free 64
        ⟨[mkHeader 48 false, mkHeader 16 true, mkHeader 48 true, mkHeader 48 true],
          [8], 200⟩ = none := by
  decide

/-- Every block of a minSizesB heap is at least 32 bytes. -/
theorem minSizes_mem {h : List Blk} (hm : minSizesB h = true) {b : Blk}
    (hb : b ∈ h) : 32 ≤ get_size b := by
  have := List.all_eq_true.mp hm b hb
  simpa using this

theorem listNeighborsGo_fst_mem (x : Nat) :
    ∀ (l : List Nat) (pr q : Nat), (listNeighborsGo pr x l).1 = some q →
      q = pr ∨ q ∈ l := by
  intro l
  induction l with
  | nil => intro pr q h; simp [listNeighborsGo] at h
  | cons y rest ih =>
    intro pr q h
    by_cases hxy : y = x
    · simp only [listNeighborsGo, if_pos hxy] at h
      obtain rfl := Option.some.inj h
      exact Or.inl rfl
    · simp only [listNeighborsGo, if_neg hxy] at h
      rcases ih y q h with h1 | h2
      · exact Or.inr (by rw [h1]; exact List.mem_cons_self _ _)
      · exact Or.inr (List.mem_cons_of_mem _ h2)

theorem head?_mem_of {q : Nat} : ∀ {l : List Nat}, l.head? = some q → q ∈ l := by
  intro l h
  cases l with
  | nil => exact Option.noConfusion h
  | cons z zs =>
    obtain rfl := Option.some.inj h
    exact List.mem_cons_self _ _

theorem listNeighborsGo_snd_mem (x : Nat) :
    ∀ (l : List Nat) (pr q : Nat), (listNeighborsGo pr x l).2 = some q →
      q ∈ l := by
  intro l
  induction l with
  | nil => intro pr q h; simp [listNeighborsGo] at h
  | cons y rest ih =>
    intro pr q h
    by_cases hxy : y = x
    · simp only [listNeighborsGo, if_pos hxy] at h
      exact List.mem_cons_of_mem _ (head?_mem_of h)
    · simp only [listNeighborsGo, if_neg hxy] at h
      exact List.mem_cons_of_mem _ (ih y q h)

theorem listNeighbors_fst_mem {x q : Nat} {l : List Nat}
    (h : (listNeighbors x l).1 = some q) : q ∈ l := by
  cases l with
  | nil => simp [listNeighbors] at h
  | cons y rest =>
    by_cases hxy : y = x
    · simp [listNeighbors, hxy] at h
    · simp only [listNeighbors, if_neg hxy] at h
      rcases listNeighborsGo_fst_mem x rest y q h with h1 | h2
      · rw [h1]; exact List.mem_cons_self _ _
      · exact List.mem_cons_of_mem _ h2

theorem listNeighbors_snd_mem {x q : Nat} {l : List Nat}
    (h : (listNeighbors x l).2 = some q) : q ∈ l := by
  cases l with
  | nil => simp [listNeighbors] at h
  | cons y rest =>
    by_cases hxy : y = x
    · simp only [listNeighbors, if_pos hxy] at h
      exact List.mem_cons_of_mem _ (head?_mem_of h)
    · simp only [listNeighbors, if_neg hxy] at h
      exact List.mem_cons_of_mem _ (listNeighborsGo_snd_mem x rest y q h)

/-- Every remove_block write range targets the link words of a current
free-list node. -/
theorem removeWrites_mem {x : Nat} {l : List Nat} {w : Nat × Nat}
    (hw : w ∈ removeWrites x l) :
    ∃ q, q ∈ l ∧ (w = (q + 16, 8) ∨ w = (q + 8, 8)) := by
  unfold removeWrites at hw
  rw [List.mem_append] at hw
  rcases hw with h1 | h2
  · cases hp : (listNeighbors x l).1 with
    | none => rw [hp] at h1; simp at h1
    | some q =>
      rw [hp] at h1
      simp only [List.mem_singleton] at h1
      exact ⟨q, listNeighbors_fst_mem hp, Or.inl h1⟩
  · cases hp : (listNeighbors x l).2 with
    | none => rw [hp] at h2; simp at h2
    | some q =>
      rw [hp] at h2
      simp only [List.mem_singleton] at h2
      exact ⟨q, listNeighbors_snd_mem hp, Or.inr h2⟩

/-- Every free-list node of a well-formed, minimum-sized state is a free
block of at least 32 bytes at its derived address. -/
theorem freeList_covered (st : AllocState) (hwf : WFb st = true)
    (hmin : minSizesB st.heap = true) {q : Nat} (hq : q ∈ st.freeList) :
    ∃ j bj, st.heap.get? j = some bj ∧ is_allocated bj = false ∧
      addrAt st.heap j = q ∧ 32 ≤ get_size bj := by
  obtain ⟨-, hfo, -, -⟩ := WFb_parts hwf
  obtain ⟨bj, hba, hfree⟩ := freeOk_mem hfo hq
  obtain ⟨j, -, hget, haddr⟩ := blockAt_idx hba
  exact ⟨j, bj, hget, hfree, haddr, minSizes_mem hmin (List.get?_mem hget)⟩

theorem take_splice_le (l new : List Blk) {i k : Nat} (hk : k ≤ i)
    (hi : i ≤ l.length) (j : Nat) :
    (l.take i ++ new ++ l.drop j).take k = l.take k := by
  have h1 : (l.take i).length = i := by rw [List.length_take]; omega
  have h2 : (l.take i ++ new).length = i + new.length := by
    rw [List.length_append, h1]
  rw [List.take_append_eq_append_take, List.take_append_eq_append_take]
  rw [h2, h1]
  rw [Nat.sub_eq_zero_of_le (show k ≤ i + new.length by omega),
    Nat.sub_eq_zero_of_le (show k ≤ i by omega)]
  rw [List.take_take, Nat.min_eq_left hk]
  simp

theorem splice_addrAt_le (l new : List Blk) {i k : Nat} (hk : k ≤ i)
    (hi : i ≤ l.length) (j : Nat) :
    addrAt (l.take i ++ new ++ l.drop j) k = addrAt l k := by
  unfold addrAt
  rw [take_splice_le l new hk hi j]

theorem splice_addrAt_ge (l new : List Blk) {i j m : Nat}
    (hij : i ≤ j) (hj : j ≤ l.length)
    (hsum : sizeSum new = sizeSum ((l.take j).drop i)) :
    addrAt (l.take i ++ new ++ l.drop j) (i + new.length + m) = addrAt l (j + m) := by
  have h1 : (l.take i).length = i := by rw [List.length_take]; omega
  have h2 : (l.take i ++ new).length = i + new.length := by
    rw [List.length_append, h1]
  unfold addrAt
  have e1 : (l.take i ++ new ++ l.drop j).take (i + new.length + m) =
      (l.take i ++ new) ++ (l.drop j).take m := by
    rw [List.take_append_eq_append_take]
    rw [List.take_of_length_le (by rw [h2]; omega)]
    rw [h2]
    rw [show i + new.length + m - (i + new.length) = m by omega]
  rw [e1]
  have e2 : l.take (j + m) = l.take j ++ (l.drop j).take m := by
    rw [← List.take_add]
  have e3 : l.take j = l.take i ++ (l.take j).drop i := by
    conv_lhs => rw [← List.take_append_drop i (l.take j)]
    rw [List.take_take, Nat.min_eq_left hij]
  rw [sizeSum_append, sizeSum_append, e2, sizeSum_append, e3, sizeSum_append, hsum]

/-- Every allocated block of the heap obtained by replacing the span
[lo, hi) with a single free block comes from the untouched part of the
original heap, at the same derived address. -/
theorem splice_alloc_src (l : List Blk) (z : Blk) (lo hi : Nat)
    (hlo : lo ≤ hi) (hhi : hi ≤ l.length)
    (hsz : sizeSum [z] = sizeSum ((l.take hi).drop lo))
    (hzfree : is_allocated z = false) :
    ∀ k c, (l.take lo ++ [z] ++ l.drop hi).get? k = some c →
      is_allocated c = true →
      ∃ j, l.get? j = some c ∧ (j < lo ∨ hi ≤ j) ∧
        addrAt (l.take lo ++ [z] ++ l.drop hi) k = addrAt l j := by
  intro k c hk hc
  have hloL : lo ≤ l.length := le_trans hlo hhi
  by_cases h1 : k < lo
  · refine ⟨k, ?_, Or.inl h1, ?_⟩
    · rw [splice_get?_lt l [z] h1 hloL] at hk
      exact hk
    · exact splice_addrAt_le l [z] (by omega) hloL hi
  · by_cases h2 : k = lo
    · exfalso
      have hmid0 : (l.take lo ++ [z] ++ l.drop hi).get? (lo + 0) = [z].get? 0 :=
        @splice_get?_mid Blk l [z] lo hi 0 hloL (by simp)
      have hmid : (l.take lo ++ [z] ++ l.drop hi).get? lo = [z].get? 0 := by
        simpa using hmid0
      rw [h2, hmid] at hk
      obtain rfl := Option.some.inj hk
      rw [hzfree] at hc
      exact Bool.noConfusion hc
    · obtain ⟨m, rfl⟩ : ∃ m, k = lo + 1 + m := ⟨k - lo - 1, by omega⟩
      refine ⟨hi + m, ?_, Or.inr (by omega), ?_⟩
      · rw [show lo + 1 + m = lo + [z].length + m by simp] at hk
        rw [splice_get?_ge l [z] hloL] at hk
        exact hk
      · rw [show lo + 1 + m = lo + [z].length + m by simp]
        exact splice_addrAt_ge l [z] hlo hhi hsz

/-- A byte range inside one block's extent cannot meet the payload of a
block at a different index. -/
theorem cover_conclude (l : List Blk) {j j2 : Nat} {bj c : Blk} {w : Nat × Nat}
    (hj : l.get? j = some bj) (hj2 : l.get? j2 = some c)
    (hne : j ≠ j2)
    (hcov1 : addrAt l j ≤ w.1) (hcov2 : w.1 + w.2 ≤ addrAt l j + get_size bj) :
    w.1 + w.2 ≤ addrAt l j2 + HDR ∨ addrAt l j2 + get_size c - FTR ≤ w.1 := by
  rcases Nat.lt_or_ge j j2 with hlt | hge
  · left
    have := extent_le l hlt bj hj
    omega
  · right
    have hlt2 : j2 < j := by omega
    have := extent_le l hlt2 c hj2
    omega

theorem seg_single (l : List Blk) {i : Nat} {b : Blk} (hb : l.get? i = some b) :
    (l.take (i + 1)).drop i = [b] := by
  have hlen : i < l.length := (List.get?_eq_some.mp hb).1
  have h1 : (l.take i).length = i := by rw [List.length_take]; omega
  have hb' : l[i]? = some b := by simpa [← List.get?_eq_getElem?] using hb
  rw [List.take_succ, hb']
  rw [List.drop_append_eq_append_drop]
  rw [List.drop_of_length_le (by omega), Nat.sub_eq_zero_of_le (by omega)]
  rfl

theorem seg_succ (l : List Blk) {i j : Nat} {b : Blk} (hij : i ≤ j)
    (hj : l.get? j = some b) :
    (l.take (j + 1)).drop i = (l.take j).drop i ++ [b] := by
  have hlen : j < l.length := (List.get?_eq_some.mp hj).1
  have h1 : (l.take j).length = j := by rw [List.length_take]; omega
  have hb' : l[j]? = some b := by simpa [← List.get?_eq_getElem?] using hj
  rw [List.take_succ, hb']
  rw [List.drop_append_eq_append_drop]
  rw [Nat.sub_eq_zero_of_le (by omega)]
  rfl

/-- The add_block writes land in the freed block (the first two payload
words) or in the old head's prev word, all inside blocks that are the
freed block or free. -/
theorem addWrites_covered (st : AllocState) (hwf : WFb st = true)
    (hmin : minSizesB st.heap = true) {i : Nat} {b : Blk}
    (hget : st.heap.get? i = some b) (hs32 : 32 ≤ get_size b)
    {w : Nat × Nat} (hw : w ∈ addWrites (addrAt st.heap i) st.freeList) :
    ∃ j bj, st.heap.get? j = some bj ∧ (j = i ∨ is_allocated bj = false) ∧
      addrAt st.heap j ≤ w.1 ∧ w.1 + w.2 ≤ addrAt st.heap j + get_size bj := by
  unfold addWrites at hw
  rw [List.mem_cons, List.mem_cons] at hw
  rcases hw with rfl | rfl | hw
  · exact ⟨i, b, hget, Or.inl rfl, by simp, by simp; omega⟩
  · exact ⟨i, b, hget, Or.inl rfl, by simp, by simp; omega⟩
  · cases hfl : st.freeList with
    | nil => rw [hfl] at hw; simp at hw
    | cons old tl =>
      rw [hfl] at hw
      simp only [List.mem_singleton] at hw
      subst hw
      have hom : old ∈ st.freeList := by rw [hfl]; exact List.mem_cons_self _ _
      obtain ⟨j, bj, hjget, hjfree, hjaddr, hj32⟩ :=
        freeList_covered st hwf hmin hom
      exact ⟨j, bj, hjget, Or.inr hjfree, by simp; omega, by simp; omega⟩

/-- The remove_block writes land in the link words of current free-list
nodes, which are the freed block or free blocks. -/
theorem removeWrites_covered (st : AllocState) (hwf : WFb st = true)
    (hmin : minSizesB st.heap = true) {i : Nat} {b : Blk}
    (hget : st.heap.get? i = some b) (hs32 : 32 ≤ get_size b)
    {x : Nat} {fl : List Nat} {w : Nat × Nat}
    (hsub : ∀ q, q ∈ fl → q = addrAt st.heap i ∨ q ∈ st.freeList)
    (hw : w ∈ removeWrites x fl) :
    ∃ j bj, st.heap.get? j = some bj ∧ (j = i ∨ is_allocated bj = false) ∧
      addrAt st.heap j ≤ w.1 ∧ w.1 + w.2 ≤ addrAt st.heap j + get_size bj := by
  obtain ⟨q, hq, hcases⟩ := removeWrites_mem hw
  rcases hsub q hq with hqa | hmem
  · subst hqa
    rcases hcases with rfl | rfl
    · exact ⟨i, b, hget, Or.inl rfl, by simp, by simp; omega⟩
    · exact ⟨i, b, hget, Or.inl rfl, by simp, by simp; omega⟩
  · obtain ⟨j, bj, hjget, hjfree, hjaddr, hj32⟩ := freeList_covered st hwf hmin hmem
    rcases hcases with rfl | rfl
    · exact ⟨j, bj, hjget, Or.inr hjfree, by simp; omega, by simp; omega⟩
    · exact ⟨j, bj, hjget, Or.inr hjfree, by simp; omega, by simp; omega⟩

/-- Closing step of the frame theorem: a write covered by the extent of a
pre-heap block that is the freed block or free cannot meet the payload of
any allocated block of the spliced heap. -/
theorem frame_finish (l : List Blk) (z : Blk) (lo hi i : Nat) {k : Nat} {c : Blk}
    {w : Nat × Nat}
    (hlo : lo ≤ hi) (hhi : hi ≤ l.length)
    (hsz : sizeSum [z] = sizeSum ((l.take hi).drop lo))
    (hzfree : is_allocated z = false)
    (hilo : lo ≤ i) (hihi : i < hi)
    (hk : (l.take lo ++ [z] ++ l.drop hi).get? k = some c)
    (hc : is_allocated c = true)
    (hcover : ∃ j bj, l.get? j = some bj ∧ (j = i ∨ is_allocated bj = false) ∧
      addrAt l j ≤ w.1 ∧ w.1 + w.2 ≤ addrAt l j + get_size bj) :
    w.1 + w.2 ≤ addrAt (l.take lo ++ [z] ++ l.drop hi) k + HDR ∨
      addrAt (l.take lo ++ [z] ++ l.drop hi) k + get_size c - FTR ≤ w.1 := by
  obtain ⟨j2, hj2, hpos, haddr2⟩ :=
    splice_alloc_src l z lo hi hlo hhi hsz hzfree k c hk hc
  obtain ⟨j, bj, hj, hji, hcov1, hcov2⟩ := hcover
  rw [haddr2]
  refine cover_conclude l hj hj2 ?_ hcov1 hcov2
  rcases hji with rfl | hfree
  · omega
  · intro he
    subst he
    rw [hj] at hj2
    obtain rfl := Option.some.inj hj2
    rw [hfree] at hc
    exact Bool.noConfusion hc

/-- C10: if every heap block has at least the minimum block size, then
mm_free(p) on an allocated block writes only into block header and footer
words and into payload words of blocks that are free when the call
returns: no write range of the call meets the payload area of any block
still allocated in the resulting heap. -/
theorem C10_free_frame (st : AllocState) (p : Nat) (b : Blk)
    (hwf : WFb st = true) (hmin : minSizesB st.heap = true)
    (hb : blockAt st.heap (p - HDR) = some b) (halloc : is_allocated b = true) :
    ∀ st', mm_free p st = some st' →
      ∀ w, w ∈ freeWrites p st → ∀ k c, st'.heap.get? k = some c →
        is_allocated c = true →
        w.1 + w.2 ≤ addrAt st'.heap k + HDR ∨
          addrAt st'.heap k + get_size c - FTR ≤ w.1 := by
  obtain ⟨i, hidx, hget, haddr⟩ := blockAt_idx hb
  have hlen : i < st.heap.length := (List.get?_eq_some.mp hget).1
  have hs32 : 32 ≤ get_size b := minSizes_mem hmin (List.get?_mem hget)
  have hgetD : (st.heap.get? i).getD ⟨0⟩ = b := by rw [hget]; rfl
  intro st' hf w hw k c hk hc
  have hbig : ¬ get_size b < MIN_BLOCK := by
    simp only [MIN_BLOCK, HDR, FTR]
    omega
  simp only [mm_free, hidx] at hf
  rw [hgetD, if_neg hbig] at hf
  have hst := Option.some.inj hf
  have hheap : st'.heap =
      (coalesce_helper st.heap ((p - HDR) :: st.freeList) i).1 := by
    rw [← hst]
  rw [← haddr] at hheap
  rw [hheap] at hk ⊢
  simp only [freeWrites, hidx] at hw
  rw [hgetD, if_neg hbig] at hw
  rw [← haddr] at hw
  rw [List.mem_append] at hw
  have hnexta : addrAt st.heap (i + 1) = addrAt st.heap i + get_size b :=
    addrAt_succ st.heap i b hget
  by_cases hP : isFreeO (if i = 0 then none else st.heap.get? (i - 1)) = true
  case pos =>
    have hi0 : i ≠ 0 := by
      intro h0
      rw [h0] at hP
      simp [isFreeO] at hP
    obtain ⟨pb, hpb, hpfree⟩ :
        ∃ pb, st.heap.get? (i - 1) = some pb ∧ is_allocated pb = false := by
      rw [if_neg hi0] at hP
      cases hq : st.heap.get? (i - 1) with
      | none => rw [hq] at hP; simp [isFreeO] at hP
      | some pb =>
        rw [hq] at hP
        simp only [isFreeO, Bool.not_eq_true'] at hP
        exact ⟨pb, rfl, hP⟩
    have sp32 : 32 ≤ get_size pb := minSizes_mem hmin (List.get?_mem hpb)
    have hap : addrAt st.heap i = addrAt st.heap (i - 1) + get_size pb := by
      have h1 := addrAt_succ st.heap (i - 1) pb hpb
      rw [show i - 1 + 1 = i by omega] at h1
      exact h1
    have e3 : (st.heap.take i).drop (i - 1) = [pb] := by
      have h1 := seg_single st.heap hpb
      rw [show i - 1 + 1 = i by omega] at h1
      exact h1
    have e2 : (st.heap.take (i + 1)).drop (i - 1) =
        (st.heap.take i).drop (i - 1) ++ [b] :=
      seg_succ st.heap (by omega) hget
    by_cases hN : isFreeO (st.heap.get? (i + 1)) = true
    case pos =>
      obtain ⟨nb, hnb, hnfree⟩ :
          ∃ nb, st.heap.get? (i + 1) = some nb ∧ is_allocated nb = false := by
        cases hq : st.heap.get? (i + 1) with
        | none => rw [hq] at hN; simp [isFreeO] at hN
        | some nb =>
          rw [hq] at hN
          simp only [isFreeO, Bool.not_eq_true'] at hN
          exact ⟨nb, rfl, hN⟩
      have sn32 : 32 ≤ get_size nb := minSizes_mem hmin (List.get?_mem hnb)
      have hn1 : i + 1 < st.heap.length := (List.get?_eq_some.mp hnb).1
      have htote : (get_size pb + get_size b + get_size nb) % 2 = 0 := by
        have g1 := get_size_even pb
        have g2 := get_size_even b
        have g3 := get_size_even nb
        omega
      have hres : (coalesce_helper st.heap (addrAt st.heap i :: st.freeList) i).1 =
          st.heap.take (i - 1) ++
            [mkHeader (get_size pb + get_size b + get_size nb) false] ++
            st.heap.drop (i + 2) := by
        simp only [coalesce_helper, hgetD, if_neg hi0, hpb, hnb]
        simp [isFreeO, hpfree, hnfree]
      have hwres : coalesceWrites st.heap (addrAt st.heap i :: st.freeList) i =
          setHeaderWrites (addrAt st.heap (i - 1))
              (get_size pb + get_size b + get_size nb) ++
            removeWrites (addrAt st.heap i + get_size b)
              (addrAt st.heap i :: st.freeList) ++
            removeWrites (addrAt st.heap i)
              ((addrAt st.heap i :: st.freeList).erase
                (addrAt st.heap i + get_size b)) := by
        simp only [coalesceWrites, hgetD, if_neg hi0, hpb, hnb]
        simp [isFreeO, hpfree, hnfree]
      have hsz1 : sizeSum [mkHeader (get_size pb + get_size b + get_size nb) false] =
          sizeSum ((st.heap.take (i + 2)).drop (i - 1)) := by
        have e1 : (st.heap.take (i + 2)).drop (i - 1) =
            (st.heap.take (i + 1)).drop (i - 1) ++ [nb] := by
          rw [show i + 2 = (i + 1) + 1 by omega]
          exact seg_succ st.heap (by omega) hnb
        rw [e1, sizeSum_append, e2, sizeSum_append, e3]
        simp only [sizeSum_cons, sizeSum_nil]
        rw [get_size_mkHeader _ _ htote]
        omega
      have hzfree : is_allocated
          (mkHeader (get_size pb + get_size b + get_size nb) false) = false :=
        is_allocated_mkHeader _ _ htote
      rw [hres] at hk ⊢
      rcases hw with hwA | hwC
      · exact frame_finish st.heap _ (i - 1) (i + 2) i (by omega) (by omega) hsz1
          hzfree (by omega) (by omega) hk hc
          (addWrites_covered st hwf hmin hget hs32 hwA)
      · rw [hwres] at hwC
        simp only [List.mem_append] at hwC
        rcases hwC with (hwS | hwR1) | hwR2
        · simp only [setHeaderWrites, List.mem_cons, List.mem_nil_iff, or_false] at hwS
          rcases hwS with rfl | hwS2
          · exact frame_finish st.heap _ (i - 1) (i + 2) i (by omega) (by omega)
              hsz1 hzfree (by omega) (by omega) hk hc
              ⟨i - 1, pb, hpb, Or.inr hpfree, by simp, by simp; omega⟩
          · rcases hwS2 with rfl
            exact frame_finish st.heap _ (i - 1) (i + 2) i (by omega) (by omega)
              hsz1 hzfree (by omega) (by omega) hk hc
              ⟨i + 1, nb, hnb, Or.inr hnfree, by simp; omega, by simp; omega⟩
        · exact frame_finish st.heap _ (i - 1) (i + 2) i (by omega) (by omega) hsz1
            hzfree (by omega) (by omega) hk hc
            (removeWrites_covered st hwf hmin hget hs32
              (fun q hq => List.mem_cons.mp hq) hwR1)
        · exact frame_finish st.heap _ (i - 1) (i + 2) i (by omega) (by omega) hsz1
            hzfree (by omega) (by omega) hk hc
            (removeWrites_covered st hwf hmin hget hs32
              (fun q hq => List.mem_cons.mp (List.erase_subset _ _ hq)) hwR2)
    case neg =>
      have hN' : isFreeO (st.heap.get? (i + 1)) = false := by simpa using hN
      have htote : (get_size pb + get_size b) % 2 = 0 := by
        have g1 := get_size_even pb
        have g2 := get_size_even b
        omega
      have hres : (coalesce_helper st.heap (addrAt st.heap i :: st.freeList) i).1 =
          st.heap.take (i - 1) ++ [mkHeader (get_size pb + get_size b) false] ++
            st.heap.drop (i + 1) := by
        simp only [coalesce_helper, hgetD, if_neg hi0, hpb, hN']
        simp [isFreeO, hpfree]
      have hwres : coalesceWrites st.heap (addrAt st.heap i :: st.freeList) i =
          setHeaderWrites (addrAt st.heap (i - 1)) (get_size pb + get_size b) ++
            removeWrites (addrAt st.heap i)
              (addrAt st.heap i :: st.freeList) := by
        simp only [coalesceWrites, hgetD, if_neg hi0, hpb, hN']
        simp [isFreeO, hpfree]
      have hsz1 : sizeSum [mkHeader (get_size pb + get_size b) false] =
          sizeSum ((st.heap.take (i + 1)).drop (i - 1)) := by
        rw [e2, sizeSum_append, e3]
        simp only [sizeSum_cons, sizeSum_nil]
        rw [get_size_mkHeader _ _ htote]
        omega
      have hzfree : is_allocated (mkHeader (get_size pb + get_size b) false) = false :=
        is_allocated_mkHeader _ _ htote
      rw [hres] at hk ⊢
      rcases hw with hwA | hwC
      · exact frame_finish st.heap _ (i - 1) (i + 1) i (by omega) (by omega) hsz1
          hzfree (by omega) (by omega) hk hc
          (addWrites_covered st hwf hmin hget hs32 hwA)
      · rw [hwres] at hwC
        simp only [List.mem_append] at hwC
        rcases hwC with hwS | hwR1
        · simp only [setHeaderWrites, List.mem_cons, List.mem_nil_iff, or_false] at hwS
          rcases hwS with rfl | hwS2
          · exact frame_finish st.heap _ (i - 1) (i + 1) i (by omega) (by omega)
              hsz1 hzfree (by omega) (by omega) hk hc
              ⟨i - 1, pb, hpb, Or.inr hpfree, by simp, by simp; omega⟩
          · rcases hwS2 with rfl
            exact frame_finish st.heap _ (i - 1) (i + 1) i (by omega) (by omega)
              hsz1 hzfree (by omega) (by omega) hk hc
              ⟨i, b, hget, Or.inl rfl, by simp; omega, by simp; omega⟩
        · exact frame_finish st.heap _ (i - 1) (i + 1) i (by omega) (by omega) hsz1
            hzfree (by omega) (by omega) hk hc
            (removeWrites_covered st hwf hmin hget hs32
              (fun q hq => List.mem_cons.mp hq) hwR1)
  case neg =>
    have hP' : isFreeO (if i = 0 then none else st.heap.get? (i - 1)) = false := by
      simpa using hP
    by_cases hN : isFreeO (st.heap.get? (i + 1)) = true
    case pos =>
      obtain ⟨nb, hnb, hnfree⟩ :
          ∃ nb, st.heap.get? (i + 1) = some nb ∧ is_allocated nb = false := by
        cases hq : st.heap.get? (i + 1) with
        | none => rw [hq] at hN; simp [isFreeO] at hN
        | some nb =>
          rw [hq] at hN
          simp only [isFreeO, Bool.not_eq_true'] at hN
          exact ⟨nb, rfl, hN⟩
      have sn32 : 32 ≤ get_size nb := minSizes_mem hmin (List.get?_mem hnb)
      have hn1 : i + 1 < st.heap.length := (List.get?_eq_some.mp hnb).1
      have hnval : isFreeO (some nb) = true := by simp [isFreeO, hnfree]
      have htote : (get_size b + get_size nb) % 2 = 0 := by
        have g2 := get_size_even b
        have g3 := get_size_even nb
        omega
      have hres : (coalesce_helper st.heap (addrAt st.heap i :: st.freeList) i).1 =
          st.heap.take i ++ [mkHeader (get_size b + get_size nb) false] ++
            st.heap.drop (i + 2) := by
        have hP2 := hP'
        simp only [List.get?_eq_getElem?] at hP2
        simp only [coalesce_helper, hgetD, hnb]
        simp [hP2, hnval]
      have hwres : coalesceWrites st.heap (addrAt st.heap i :: st.freeList) i =
          setHeaderWrites (addrAt st.heap i) (get_size b + get_size nb) ++
            removeWrites (addrAt st.heap i + get_size b)
              (addrAt st.heap i :: st.freeList) := by
        have hP2 := hP'
        simp only [List.get?_eq_getElem?] at hP2
        simp only [coalesceWrites, hgetD, hnb]
        simp [hP2, hnval]
      have hsz1 : sizeSum [mkHeader (get_size b + get_size nb) false] =
          sizeSum ((st.heap.take (i + 2)).drop i) := by
        have e1 : (st.heap.take (i + 2)).drop i =
            (st.heap.take (i + 1)).drop i ++ [nb] := by
          rw [show i + 2 = (i + 1) + 1 by omega]
          exact seg_succ st.heap (by omega) hnb
        rw [e1, sizeSum_append, seg_single st.heap hget]
        simp only [sizeSum_cons, sizeSum_nil]
        rw [get_size_mkHeader _ _ htote]
        omega
      have hzfree : is_allocated (mkHeader (get_size b + get_size nb) false) = false :=
        is_allocated_mkHeader _ _ htote
      rw [hres] at hk ⊢
      rcases hw with hwA | hwC
      · exact frame_finish st.heap _ i (i + 2) i (by omega) (by omega) hsz1
          hzfree (by omega) (by omega) hk hc
          (addWrites_covered st hwf hmin hget hs32 hwA)
      · rw [hwres] at hwC
        simp only [List.mem_append] at hwC
        rcases hwC with hwS | hwR1
        · simp only [setHeaderWrites, List.mem_cons, List.mem_nil_iff, or_false] at hwS
          rcases hwS with rfl | hwS2
          · exact frame_finish st.heap _ i (i + 2) i (by omega) (by omega)
              hsz1 hzfree (by omega) (by omega) hk hc
              ⟨i, b, hget, Or.inl rfl, by simp, by simp; omega⟩
          · rcases hwS2 with rfl
            exact frame_finish st.heap _ i (i + 2) i (by omega) (by omega)
              hsz1 hzfree (by omega) (by omega) hk hc
              ⟨i + 1, nb, hnb, Or.inr hnfree, by simp; omega, by simp; omega⟩
        · exact frame_finish st.heap _ i (i + 2) i (by omega) (by omega) hsz1
            hzfree (by omega) (by omega) hk hc
            (removeWrites_covered st hwf hmin hget hs32
              (fun q hq => List.mem_cons.mp hq) hwR1)
    case neg =>
      have hN' : isFreeO (st.heap.get? (i + 1)) = false := by simpa using hN
      have htote : get_size b % 2 = 0 := get_size_even b
      have hres : (coalesce_helper st.heap (addrAt st.heap i :: st.freeList) i).1 =
          st.heap.take i ++ [mkHeader (get_size b) false] ++
            st.heap.drop (i + 1) := by
        have hP2 := hP'
        have hN2 := hN'
        simp only [List.get?_eq_getElem?] at hP2 hN2
        simp only [coalesce_helper, hgetD]
        simp [hP2, hN2]
      have hwres : coalesceWrites st.heap (addrAt st.heap i :: st.freeList) i =
          setHeaderWrites (addrAt st.heap i) (get_size b) := by
        have hP2 := hP'
        have hN2 := hN'
        simp only [List.get?_eq_getElem?] at hP2 hN2
        simp only [coalesceWrites, hgetD]
        simp [hP2, hN2]
      have hsz1 : sizeSum [mkHeader (get_size b) false] =
          sizeSum ((st.heap.take (i + 1)).drop i) := by
        rw [seg_single st.heap hget]
        simp only [sizeSum_cons, sizeSum_nil]
        rw [get_size_mkHeader _ _ htote]
      have hzfree : is_allocated (mkHeader (get_size b) false) = false :=
        is_allocated_mkHeader _ _ htote
      rw [hres] at hk ⊢
      rcases hw with hwA | hwC
      · exact frame_finish st.heap _ i (i + 1) i (by omega) (by omega) hsz1
          hzfree (by omega) (by omega) hk hc
          (addWrites_covered st hwf hmin hget hs32 hwA)
      · rw [hwres] at hwC
        simp only [setHeaderWrites, List.mem_cons, List.mem_nil_iff, or_false] at hwC
        rcases hwC with rfl | hwS2
        · exact frame_finish st.heap _ i (i + 1) i (by omega) (by omega)
            hsz1 hzfree (by omega) (by omega) hk hc
            ⟨i, b, hget, Or.inl rfl, by simp, by simp; omega⟩
        · rcases hwS2 with rfl
          exact frame_finish st.heap _ i (i + 1) i (by omega) (by omega)
            hsz1 hzfree (by omega) (by omega) hk hc
            ⟨i, b, hget, Or.inl rfl, by simp; omega, by simp; omega⟩

/-- C10 witness: a heap of an allocated, a free and an allocated block;
freeing the first block's payload coalesces it with the free middle
block, and the write into the old free-list head's prev word (bytes 64 to
72) stays clear of the payload of the still-allocated 64-byte block at
index 1 of the resulting heap. -/
theorem C10_free_frame_witness :
    (64, 8).1 + (64, 8).2 ≤
        addrAt (⟨[mkHeader 96 false, mkHeader 64 true], [8], 200⟩ :
          AllocState).heap 1 + HDR ∨
      addrAt (⟨[mkHeader 96 false, mkHeader 64 true], [8], 200⟩ :
          AllocState).heap 1 + get_size (mkHeader 64 true) - FTR ≤ (64, 8).1 :=
  C10_free_frame
    ⟨[mkHeader 48 true, mkHeader 48 false, mkHeader 64 true], [56], 200⟩ 16
    (mkHeader 48 true) (by decide) (by decide) (by decide) (by decide)
    ⟨[mkHeader 96 false, mkHeader 64 true], [8], 200⟩ (by decide)
    (64, 8) (by decide) 1 (mkHeader 64 true) (by decide) (by decide)

end MM
